import Mathlib

/-!
Verification of the signal-extraction engine of the ralph-loop CLI tools:
a shallow embedding of `json_extractor.py` (the Structured-Block Locator)
and `rate_limit_parser.py` (the Rate-Limit Resolver), with theorems about
the behaviours stated in the specification.

The JSON value type and the model of Python's `json.loads` are restricted
to integer numerals, the basic one-character escapes, and no `\uXXXX`
escapes; this is the fragment exercised by the extractor's contracts.
-/

/-! ## JSON data model -/

mutual

/-- JSON values (objects kept as ordered key-value lists, as the spec's
`ExtractedObject` prescribes). -/
inductive Json where
  | null
  | bool (b : Bool)
  | num (n : Int)
  | str (s : String)
  | arr (xs : JArr)
  | obj (ms : JObj)
deriving DecidableEq

/-- JSON array spine. -/
inductive JArr where
  | nil
  | cons (hd : Json) (tl : JArr)
deriving DecidableEq

/-- JSON object spine: ordered key / value pairs. -/
inductive JObj where
  | nil
  | cons (k : String) (v : Json) (tl : JObj)
deriving DecidableEq

end

/-! ## Canonical rendering of JSON values to text -/

/-- Decimal digit character for a digit value. -/
def digitChQ (d : Nat) : Char := Char.ofNat (48 + d)

/-- Big-endian decimal digits of a natural number (fuel-driven so that the
kernel can evaluate it). -/
def natDigitsAux : Nat → Nat → List Char
  | 0, _ => []
  | fuel + 1, n =>
    if n < 10 then [digitChQ n]
    else natDigitsAux fuel (n / 10) ++ [digitChQ (n % 10)]

/-- Decimal digits of a natural number. -/
def natDigits (n : Nat) : List Char := natDigitsAux (n + 1) n

/-- Decimal rendering of an integer, as `json.dumps` prints it. -/
def intChars (n : Int) : List Char :=
  if n < 0 then '-' :: natDigits n.natAbs else natDigits n.toNat

/-- Escape the body of a JSON string literal: `"` and backslash get a
backslash prefix, all other characters are emitted as they are. -/
def escBody : List Char → List Char
  | [] => []
  | c :: cs => if c = '"' ∨ c = '\\' then '\\' :: c :: escBody cs else c :: escBody cs

/-- A JSON string literal: quote, escaped body, quote. -/
def renderStrLit (s : String) : List Char := '"' :: (escBody s.data ++ ['"'])

mutual

/-- Compact textual rendering of a JSON value. -/
def renderChars : Json → List Char
  | .num n => intChars n
  | .str s => renderStrLit s
  | .arr xs => '[' :: (renderItems xs ++ [']'])
  | .obj ms => '\x7b' :: (renderMembers ms ++ ['\x7d'])
  | .bool false => ['f', 'a', 'l', 's', 'e']
  | .bool true => ['t', 'r', 'u', 'e']
  | .null => ['n', 'u', 'l', 'l']

/-- Rendering of the comma-separated elements of an array. -/
def renderItems : JArr → List Char
  | .nil => []
  | .cons h .nil => renderChars h
  | .cons h (.cons h2 t) => renderChars h ++ ',' :: renderItems (.cons h2 t)

/-- Rendering of the comma-separated members of an object. -/
def renderMembers : JObj → List Char
  | .nil => []
  | .cons k v .nil => renderStrLit k ++ ':' :: renderChars v
  | .cons k v (.cons k2 v2 t) =>
    renderStrLit k ++ ':' :: renderChars v ++ ',' :: renderMembers (.cons k2 v2 t)

end

/-! ## Model of the standard JSON parser (`json.loads`), restricted to the
fragment described at the top of the file. -/

/-- JSON insignificant whitespace. -/
def wsJ (c : Char) : Bool := c = ' ' || c = '\t' || c = '\n' || c = '\r'

/-- Skip JSON whitespace. -/
def skipJ (cs : List Char) : List Char := cs.dropWhile wsJ

/-- ASCII digit test. -/
def isDigCh (c : Char) : Bool := '0' ≤ c && c ≤ '9'

/-- Value of a digit character. -/
def digVal (c : Char) : Nat := c.toNat - 48

/-- Value of a big-endian digit string. -/
def digitsVal (cs : List Char) : Nat := cs.foldl (fun a c => a * 10 + digVal c) 0

/-- Parse a nonempty run of digits with no leading zero (as JSON requires). -/
def parseNatDigits (cs : List Char) : Option (Nat × List Char) :=
  let ds := cs.takeWhile isDigCh
  if ds.length = 0 then none
  else if 1 < ds.length && ds.headD 'x' = '0' then none
  else some (digitsVal ds, cs.dropWhile isDigCh)

/-- Parse an integer numeral (optional minus sign). -/
def parseNumFrom (cs : List Char) : Option (Json × List Char) :=
  if cs.headD ' ' = '-' then
    (parseNatDigits cs.tail).map fun p => (Json.num (-(p.1 : Int)), p.2)
  else
    (parseNatDigits cs).map fun p => (Json.num (p.1 : Int), p.2)

/-- The character denoted by a one-character JSON escape. -/
def escCharJ (c : Char) : Option Char :=
  if c = '"' then some '"'
  else if c = '\\' then some '\\'
  else if c = '/' then some '/'
  else if c = 'n' then some '\n'
  else if c = 't' then some '\t'
  else if c = 'r' then some '\r'
  else if c = 'b' then some (Char.ofNat 8)
  else if c = 'f' then some (Char.ofNat 12)
  else none

/-- Parse the body of a JSON string literal after its opening quote,
returning the decoded characters and the remainder after the closing
quote.  Raw control characters are rejected, as `json.loads` does in
strict mode. -/
def parseStrBody : List Char → Option (List Char × List Char)
  | [] => none
  | c :: cs =>
    if c = '"' then some ([], cs)
    else if c = '\\' then
      match cs with
      | [] => none
      | e :: cs2 =>
        match escCharJ e with
        | some d => (parseStrBody cs2).map fun p => (d :: p.1, p.2)
        | none => none
    else if c.toNat < 32 then none
    else (parseStrBody cs).map fun p => (c :: p.1, p.2)

mutual

/-- Parse one JSON value; `fuel` bounds the recursion depth. -/
def parseVal : Nat → List Char → Option (Json × List Char)
  | 0, _ => none
  | fuel + 1, cs =>
    match skipJ cs with
    | [] => none
    | c :: rest =>
      if c = '\x7b' then
        match skipJ rest with
        | '\x7d' :: r => some (.obj .nil, r)
        | cs2 => (parseMembers fuel cs2).map fun p => (.obj p.1, p.2)
      else if c = '[' then
        match skipJ rest with
        | ']' :: r => some (.arr .nil, r)
        | cs2 => (parseItems fuel cs2).map fun p => (.arr p.1, p.2)
      else if c = '"' then
        (parseStrBody rest).map fun p => (.str (String.mk p.1), p.2)
      else if c = 't' then
        match rest with
        | 'r' :: 'u' :: 'e' :: r => some (.bool true, r)
        | _ => none
      else if c = 'f' then
        match rest with
        | 'a' :: 'l' :: 's' :: 'e' :: r => some (.bool false, r)
        | _ => none
      else if c = 'n' then
        match rest with
        | 'u' :: 'l' :: 'l' :: r => some (.null, r)
        | _ => none
      else if c = '-' || isDigCh c then parseNumFrom (c :: rest)
      else none

/-- Parse the elements of a nonempty array after its opening bracket. -/
def parseItems : Nat → List Char → Option (JArr × List Char)
  | 0, _ => none
  | fuel + 1, cs =>
    match parseVal fuel cs with
    | none => none
    | some (v, r) =>
      match skipJ r with
      | ',' :: r2 => (parseItems fuel r2).map fun p => (.cons v p.1, p.2)
      | ']' :: r2 => some (.cons v .nil, r2)
      | _ => none

/-- Parse the members of a nonempty object after its opening brace. -/
def parseMembers : Nat → List Char → Option (JObj × List Char)
  | 0, _ => none
  | fuel + 1, cs =>
    match skipJ cs with
    | '"' :: r =>
      match parseStrBody r with
      | none => none
      | some (k, r2) =>
        match skipJ r2 with
        | ':' :: r3 =>
          match parseVal fuel r3 with
          | none => none
          | some (v, r4) =>
            match skipJ r4 with
            | ',' :: r5 => (parseMembers fuel r5).map fun p => (.cons (String.mk k) v p.1, p.2)
            | '\x7d' :: r5 => some (.cons (String.mk k) v .nil, r5)
            | _ => none
        | _ => none
    | _ => none

end

/-- Model of `json.loads`: parse a complete JSON document (the whole input
must be consumed up to trailing whitespace). -/
def Json.parse (s : String) : Option Json :=
  match parseVal (2 * s.length + 2) s.data with
  | some (v, r) => if skipJ r = [] then some v else none
  | none => none

/-! ## The Structured-Block Locator (`json_extractor.py`) -/

/-- Substring test as a prefix of some suffix, with the index where the
pattern first leads the text. -/
def leadsWith : List Char → List Char → Bool
  | [], _ => true
  | _ :: _, [] => false
  | p :: ps, c :: cs => p = c && leadsWith ps cs

/-- First index at or after the `i`-th position where `pat` occurs. -/
def findSubFrom (pat : List Char) : List Char → Nat → Option Nat
  | [], i => if leadsWith pat [] then some i else none
  | c :: t, i => if leadsWith pat (c :: t) then some i else findSubFrom pat t (i + 1)

/-- Index of the first occurrence of `pat` in `s` (Python's `str.find`). -/
def findSub (pat s : List Char) : Option Nat := findSubFrom pat s 0

/-- Python's `in` on strings. -/
def hasSubstr (pat s : List Char) : Bool := (findSub pat s).isSome

/-- Python whitespace (the `\s` class / `str.strip` default, ASCII part). -/
def isWsCh (c : Char) : Bool :=
  c = ' ' || c = '\t' || c = '\n' || c = '\r' || c = '\x0b' || c = '\x0c'

/-- Python's `str.strip()`. -/
def stripWs (cs : List Char) : List Char :=
  ((cs.dropWhile isWsCh).reverse.dropWhile isWsCh).reverse

/-- Python membership `json_type in parsed` on a decoded JSON value:
key lookup for objects, element equality for arrays, substring for
strings; `none` models the `TypeError` raised on other values. -/
def objHasKey (key : String) : JObj → Bool
  | .nil => false
  | .cons k _ t => if k = key then true else objHasKey key t

/-- Array membership test of a string, as Python's `in` performs it. -/
def arrHasStr (key : String) : JArr → Bool
  | .nil => false
  | .cons h t => if h = Json.str key then true else arrHasStr key t

/-- Python `in` on a decoded JSON value (see `objHasKey`). -/
def pyIn (key : String) : Json → Option Bool
  | .obj ms => some (objHasKey key ms)
  | .arr xs => some (arrHasStr key xs)
  | .str s => some (hasSubstr key.data s.data)
  | _ => none

/-- The opening fence of a markdown json code block. -/
def fenceOpen : List Char := "```json".data

/-- The closing fence. -/
def fenceClose : List Char := "```".data

/-- Method 1 of `find_json_containing`: iterate over the regions matched
by the pattern "triple-backtick json fence, non-greedy body, triple
backtick" in document order, returning the first stripped block that
textually contains the key, parses as JSON, and contains the key in the
Python-membership sense.  Fuel only bounds the iteration; each step drops
a nonempty prefix of the text. -/
def fencedGo : Nat → List Char → String → Option String
  | 0, _, _ => none
  | fuel + 1, cs, key =>
    match findSub fenceOpen cs with
    | none => none
    | some p =>
      let afterOpen := cs.drop (p + 7)
      match findSub fenceClose afterOpen with
      | none => none
      | some r =>
        let block := stripWs (afterOpen.take r)
        let rest := afterOpen.drop (r + 3)
        if hasSubstr key.data block then
          match Json.parse (String.mk block) with
          | some v =>
            match pyIn key v with
            | some true => some (String.mk block)
            | _ => fencedGo fuel rest key
          | none => fencedGo fuel rest key
        else fencedGo fuel rest key

/-- The backward scan of method 2: from `p`, walk left to the nearest
opening brace (stopping at index 0). -/
def backBrace (cs : List Char) : Nat → Nat
  | 0 => 0
  | p + 1 => if cs.getD (p + 1) ' ' = '\x7b' then p + 1 else backBrace cs p

/-- The forward bracket-matching scan of method 2 (source lines 49-73):
a character scanner maintaining brace depth, an in-string flag and an
escape-pending flag; returns the index one past the brace where depth
first returns to zero, or `none` if the text ends first. -/
def scanB : List Char → Nat → Int → Bool → Bool → Option Nat
  | [], _, _, _, _ => none
  | c :: cs, i, depth, inStr, esc =>
    if esc then scanB cs (i + 1) depth inStr false
    else if c = '\\' && inStr then scanB cs (i + 1) depth inStr true
    else if c = '"' then scanB cs (i + 1) depth (!inStr) false
    else if inStr then scanB cs (i + 1) depth inStr false
    else if c = '\x7b' then scanB cs (i + 1) (depth + 1) inStr false
    else if c = '\x7d' then
      if depth - 1 = 0 then some (i + 1) else scanB cs (i + 1) (depth - 1) inStr false
    else scanB cs (i + 1) depth inStr false

/-- Method 2 of `find_json_containing`: locate the first occurrence of
the quoted key, walk back to the nearest opening brace, scan forward with
`scanB`, and accept the candidate only if it parses as JSON containing
the key. -/
def bracketPass (content key : String) : Option String :=
  let cs := content.data
  let qk := '"' :: (key.data ++ ['"'])
  match findSub qk cs with
  | none => none
  | some kp =>
    let start := backBrace cs kp
    if cs.getD start ' ' = '\x7b' then
      match scanB (cs.drop start) start 0 false false with
      | none => none
      | some e =>
        let candidate := (cs.take e).drop start
        match Json.parse (String.mk candidate) with
        | some v =>
          match pyIn key v with
          | some true => some (String.mk candidate)
          | _ => none
        | none => none
    else none

/-- `find_json_containing` from `json_extractor.py`: the fenced-block pass,
then the bracket-matching pass. -/
def find_json_containing (content key : String) : Option String :=
  match fencedGo (content.data.length + 1) content.data key with
  | some b => some b
  | none => bracketPass content key


/-! ## The Rate-Limit Resolver (`rate_limit_parser.py`)

The four time-bearing detection regexes are embedded as character-level
matchers with the same greedy/backtracking behaviour, compared
case-insensitively (the source compiles every pattern with
`re.IGNORECASE`); captured groups keep the original casing of the input
slice, exactly as `match.group` does. -/

/-- ASCII lowercasing of one character (the effect of `re.IGNORECASE` /
`str.lower` on the character sets these patterns use). -/
def lowCh : Char → Char
  | 'A' => 'a'
  | 'B' => 'b'
  | 'C' => 'c'
  | 'D' => 'd'
  | 'E' => 'e'
  | 'F' => 'f'
  | 'G' => 'g'
  | 'H' => 'h'
  | 'I' => 'i'
  | 'J' => 'j'
  | 'K' => 'k'
  | 'L' => 'l'
  | 'M' => 'm'
  | 'N' => 'n'
  | 'O' => 'o'
  | 'P' => 'p'
  | 'Q' => 'q'
  | 'R' => 'r'
  | 'S' => 's'
  | 'T' => 't'
  | 'U' => 'u'
  | 'V' => 'v'
  | 'W' => 'w'
  | 'X' => 'x'
  | 'Y' => 'y'
  | 'Z' => 'z'
  | c => c

/-- Case-insensitive literal matcher (the pattern is given lowercase). -/
def matchLitCI : List Char → List Char → Option (List Char)
  | [], s => some s
  | _ :: _, [] => none
  | p :: ps, c :: cs => if lowCh c = p then matchLitCI ps cs else none

/-- Case-insensitive single-character matcher. -/
def matchChCI (p : Char) : List Char → Option (List Char)
  | [] => none
  | c :: cs => if lowCh c = p then some cs else none

/-- `\s+`: at least one whitespace character, then a maximal run (its
followers in every pattern are disjoint from whitespace, so maximal munch
coincides with the regex's greedy backtracking). -/
def ws1 : List Char → Option (List Char)
  | [] => none
  | c :: cs => if isWsCh c then some (cs.dropWhile isWsCh) else none

/-- `\s*` inside a capture group: the taken run and the remainder. -/
def wsTake (s : List Char) : List Char × List Char :=
  (s.takeWhile isWsCh, s.dropWhile isWsCh)

/-- `s?\s+` after the literal `reset`: the greedy branch that consumes the
optional `s` is tried first, as the regex engine does. -/
def sOptWs1 (s : List Char) : Option (List Char) :=
  (match s with
   | c :: cs => if lowCh c = 's' then ws1 cs else none
   | [] => none) <|> ws1 s

/-- `(?:am|pm)`, keeping the original two characters. -/
def amPm : List Char → Option (List Char × List Char)
  | a :: b :: r =>
    if (lowCh a = 'a' || lowCh a = 'p') && lowCh b = 'm' then some ([a, b], r) else none
  | _ => none

/-- `\d{1,2}` with the regex's greedy order: the two-digit reading first,
then the one-digit fallback. -/
def dig12cands : List Char → List (List Char × List Char)
  | a :: b :: r =>
    if isDigCh a then
      if isDigCh b then [([a, b], r), ([a], b :: r)] else [([a], b :: r)]
    else []
  | [a] => if isDigCh a then [([a], [])] else []
  | [] => []

/-- Try alternatives in order, keeping the first that lets the rest of the
pattern succeed (regex backtracking). -/
def firstSome : List α → (α → Option β) → Option β
  | [], _ => none
  | c :: rest, k => k c <|> firstSome rest k

/-- `\d{2}`. -/
def dig2 : List Char → Option (List Char × List Char)
  | a :: b :: r => if isDigCh a && isDigCh b then some ([a, b], r) else none
  | _ => none

/-- `\d{4}`. -/
def dig4 : List Char → Option (List Char × List Char)
  | a :: b :: c :: d :: r =>
    if isDigCh a && isDigCh b && isDigCh c && isDigCh d then some ([a, b, c, d], r) else none
  | _ => none

/-- `([^)]+)\)`: the greedy non-parenthesis run, then the closing paren. -/
def zoneCap (s : List Char) : Option (List Char × List Char) :=
  let g := s.takeWhile (fun c => c ≠ ')')
  match s.dropWhile (fun c => c ≠ ')') with
  | ')' :: r => if g.isEmpty then none else some (g, r)
  | _ => none

/-- The common tail `\s*\(([^)]+)\)`, returning the zone capture. -/
def afterTimeZone (s : List Char) : Option (List Char) := do
  let s2 ← matchChCI '(' (s.dropWhile isWsCh)
  let (z, _) ← zoneCap s2
  pure z

/-- Pattern 1 anchored at a position:
`resets?\s+(\d{1,2}\s*(?:am|pm))\s*\(([^)]+)\)`. -/
def p1At (s : List Char) : Option (List Char × List Char) := do
  let s1 ← matchLitCI "reset".data s
  let s2 ← sOptWs1 s1
  firstSome (dig12cands s2) fun dc => do
    let (w, s4) := wsTake dc.2
    let (ap, s5) ← amPm s4
    let z ← afterTimeZone s5
    pure (dc.1 ++ w ++ ap, z)

/-- Pattern 2 anchored at a position:
`resets?\s+(\d{1,2}:\d{2}\s*(?:am|pm))\s*\(([^)]+)\)`. -/
def p2At (s : List Char) : Option (List Char × List Char) := do
  let s1 ← matchLitCI "reset".data s
  let s2 ← sOptWs1 s1
  firstSome (dig12cands s2) fun dc => do
    let s3 ← matchChCI ':' dc.2
    let (mm, s4) ← dig2 s3
    let (w, s5) := wsTake s4
    let (ap, s6) ← amPm s5
    let z ← afterTimeZone s6
    pure (dc.1 ++ ':' :: (mm ++ w ++ ap), z)

/-- Pattern 3 anchored at a position:
`resets?\s+(\d{1,2}:\d{2})\s*\(([^)]+)\)`. -/
def p3At (s : List Char) : Option (List Char × List Char) := do
  let s1 ← matchLitCI "reset".data s
  let s2 ← sOptWs1 s1
  firstSome (dig12cands s2) fun dc => do
    let s3 ← matchChCI ':' dc.2
    let (mm, s4) ← dig2 s3
    let z ← afterTimeZone s4
    pure (dc.1 ++ ':' :: mm, z)

/-- `[A-Za-z]` test. -/
def isAlphaCh (c : Char) : Bool := ('A' ≤ c && c ≤ 'Z') || ('a' ≤ c && c ≤ 'z')

/-- `[A-Za-z]+` (maximal; its follower `\s+` is disjoint). -/
def alpha1 : List Char → Option (List Char)
  | [] => none
  | c :: cs => if isAlphaCh c then some (cs.dropWhile isAlphaCh) else none

/-- `,?\s+`, greedy comma branch first. -/
def commaWs1 (s : List Char) : Option (List Char) :=
  (match s with
   | c :: cs => if lowCh c = ',' then ws1 cs else none
   | [] => none) <|> ws1 s

/-- `(?::\d{2})?` with the regex's greedy order. -/
def optColonDD (s : List Char) : List (List Char × List Char) :=
  match s with
  | ':' :: a :: b :: r =>
    if isDigCh a && isDigCh b then [([':', a, b], r), ([], ':' :: a :: b :: r)]
    else [([], ':' :: a :: b :: r)]
  | _ => [([], s)]

/-- Pattern 4 anchored at a position:
`resets?\s+[A-Za-z]+\s+\d{1,2},?\s+\d{4},?\s+(\d{1,2}(?::\d{2})?\s*(?:am|pm))\s*\(([^)]+)\)`. -/
def p4At (s : List Char) : Option (List Char × List Char) := do
  let s1 ← matchLitCI "reset".data s
  let s2 ← sOptWs1 s1
  let s3 ← alpha1 s2
  let s4 ← ws1 s3
  firstSome (dig12cands s4) fun day => do
    let s5 ← commaWs1 day.2
    let (_, s6) ← dig4 s5
    let s7 ← commaWs1 s6
    firstSome (dig12cands s7) fun hh =>
      firstSome (optColonDD hh.2) fun cd => do
        let (w, s8) := wsTake cd.2
        let (ap, s9) ← amPm s8
        let z ← afterTimeZone s9
        pure (hh.1 ++ cd.1 ++ w ++ ap, z)

/-- `re.search`: try the anchored matcher at every position, leftmost
match first. -/
def searchO (f : List Char → Option α) : List Char → Option α
  | [] => f []
  | c :: t => f (c :: t) <|> searchO f t

/-- The four time-bearing patterns in the source's order
`[pattern2, pattern1, pattern3, pattern4]`. -/
def timeSearch (cs : List Char) : Option (List Char × List Char) :=
  searchO p2At cs <|> searchO p1At cs <|> searchO p3At cs <|> searchO p4At cs

/-- `you'?ve hit your limit` anchored at a position (the optional
apostrophe is deterministic: its follower is `v`). -/
def bare1At (s : List Char) : Option (List Char) := do
  let s1 ← matchLitCI "you".data s
  let s2 :=
    match s1 with
    | c :: cs => if c = Char.ofNat 39 then cs else s1
    | [] => s1
  matchLitCI "ve hit your limit".data s2

/-- The bare rate-limit phrases (source lines 61-66), each searched with
`re.search(..., re.IGNORECASE)`. -/
def bareHit (cs : List Char) : Bool :=
  (searchO bare1At cs).isSome
    || (searchO (matchLitCI "rate limit exceeded".data) cs).isSome
    || (searchO (matchLitCI "rate limited".data) cs).isSome
    || (searchO (matchLitCI "too many requests".data) cs).isSome

/-- `BARE_PATTERN_MAX_CONTENT_SIZE` from the source. -/
def BARE_PATTERN_MAX_CONTENT_SIZE : Nat := 500

/-- `RATE_LIMIT_BUFFER_SECONDS` from the source. -/
def RATE_LIMIT_BUFFER_SECONDS : Int := 60

/-- `find_rate_limit_pattern` from `rate_limit_parser.py`: the parseable
patterns first (stripped captures), then — only for short content — the
bare phrases. -/
def find_rate_limit_pattern (content : String) : Option (String × String) × Bool :=
  match timeSearch content.data with
  | some (g1, g2) => (some (String.mk (stripWs g1), String.mk (stripWs g2)), true)
  | none =>
    if content.length ≤ BARE_PATTERN_MAX_CONTENT_SIZE && bareHit content.data then
      (none, true)
    else (none, false)

/-! ### Time resolution -/

/-- The uncaught exception a `datetime.replace` with an out-of-range field
raises. -/
inductive PyErr where
  | valueError
deriving DecidableEq

/-- Fixed-offset model of `zoneinfo.ZoneInfo`: IANA key to (UTC offset in
seconds, `tzname` abbreviation).  Zones this table omits behave like an
unknown key, for which `ZoneInfo` raises (caught by the source and turned
into the unparseable outcome).  Daylight-saving transitions are not
modelled; the listed zones currently observe a fixed offset. -/
def zoneTable : List (String × Int × String) :=
  [("UTC", 0, "UTC"),
   ("Etc/UTC", 0, "UTC"),
   ("America/Bahia", -10800, "-03"),
   ("America/Sao_Paulo", -10800, "-03")]

/-- Look a zone key up in `zoneTable`. -/
def zoneLookup (z : String) : Option (Int × String) :=
  (zoneTable.find? (fun e => e.1 = z)).map (·.2)

/-- Python's `int()` on a string: optional surrounding whitespace, an
optional sign, then digits. -/
def pyIntStr (cs : List Char) : Option Int :=
  match stripWs cs with
  | '-' :: ds => if !ds.isEmpty && ds.all isDigCh then some (-(digitsVal ds : Int)) else none
  | '+' :: ds => if !ds.isEmpty && ds.all isDigCh then some ((digitsVal ds : Int)) else none
  | ds => if !ds.isEmpty && ds.all isDigCh then some ((digitsVal ds : Int)) else none

/-- Python's `str.rstrip('apm')`. -/
def rstripApm (cs : List Char) : List Char :=
  (cs.reverse.dropWhile (fun c => c = 'a' || c = 'p' || c = 'm')).reverse

/-- The source's 12-hour to 24-hour conversion (lines 136-139):
`if 'pm' in s and hour != 12: hour += 12 elif 'am' in s and hour == 12:
hour = 0`. -/
def convert12To24 (hour : Int) (hasPm hasAm : Bool) : Int :=
  if hasPm ∧ hour ≠ 12 then hour + 12
  else if hasAm ∧ hour = 12 then 0
  else hour

/-- Civil date from days since 1970-01-01 (the standard floor-division
algorithm the `datetime` library realises). -/
def civilFromDays (z : Int) : Int × Int × Int :=
  let z2 := z + 719468
  let era := z2 / 146097
  let doe := z2 % 146097
  let yoe := (doe - doe / 1460 + doe / 36524 - doe / 146096) / 365
  let y := yoe + era * 400
  let doy := doe - (365 * yoe + yoe / 4 - yoe / 100)
  let mp := (5 * doy + 2) / 153
  let d := doy - (153 * mp + 2) / 5 + 1
  let m := mp + (if mp < 10 then 3 else -9)
  (y + (if m ≤ 2 then 1 else 0), m, d)

/-- Two-digit zero-padded rendering. -/
def pad2 (n : Int) : List Char :=
  if n < 10 then '0' :: natDigits n.toNat else natDigits n.toNat

/-- `strftime('%Y-%m-%d %H:%M:%S %Z')` on a local timestamp (seconds in
the zone's local clock) with the zone's abbreviation. -/
def fmtDateTime (localSec : Int) (abb : String) : String :=
  let days := localSec / 86400
  let sod := localSec % 86400
  let ymd := civilFromDays days
  String.mk (natDigits ymd.1.toNat ++ '-' :: (pad2 ymd.2.1 ++ '-' :: (pad2 ymd.2.2
    ++ ' ' :: (pad2 (sod / 3600) ++ ':' :: (pad2 (sod % 3600 / 60)
    ++ ':' :: (pad2 (sod % 60) ++ ' ' :: abb.data))))))

/-- The reset-instant arithmetic of `parse_time_with_timezone` (source
lines 144-154) over a fixed-offset zone: today's local date with the
parsed hour/minute and seconds zeroed, one day added if that instant is at
or before "now", then the 60-second buffer, converted back to an epoch. -/
def resetEpoch (off h m nowEpoch : Int) : Int :=
  let nowLoc := nowEpoch + off
  let dayStart := nowLoc - nowLoc % 86400
  let reset0 := dayStart + h * 3600 + m * 60
  let reset1 := if reset0 ≤ nowLoc then reset0 + 86400 else reset0
  (reset1 + RATE_LIMIT_BUFFER_SECONDS) - off

/-- The `time_str` parsing of `parse_time_with_timezone` (source lines
104-141), factored out of `parse_time_with_timezone` below: the 24-hour
branch when the lowercased stripped string holds no am/pm, otherwise the
space-removed 12-hour branch followed by `convert12To24`. -/
def parseHourMinute (timeStr : String) : Option (Int × Int) :=
  let lower0 := stripWs (timeStr.data.map lowCh)
  if !hasSubstr "am".data lower0 && !hasSubstr "pm".data lower0 then
    if lower0.contains ':' then
      match lower0.splitOn ':' with
      | [hs, ms] =>
        match pyIntStr hs, pyIntStr ms with
        | some h, some m => some (h, m)
        | _, _ => none
      | _ => none
    else none
  else
    let t := lower0.filter (fun c => !isWsCh c)
    let hm0 : Option (Int × Int) :=
      if t.contains ':' then
        match (rstripApm t).splitOn ':' with
        | [hs, ms] =>
          match pyIntStr hs, pyIntStr ms with
          | some h, some m => some (h, m)
          | _, _ => none
        | _ => none
      else
        match pyIntStr (rstripApm t) with
        | some h => some (h, 0)
        | none => none
    hm0.map fun p =>
      (convert12To24 p.1 (hasSubstr "pm".data t) (hasSubstr "am".data t), p.2)

/-- `parse_time_with_timezone` from `rate_limit_parser.py`, with "now"
passed explicitly as an epoch second.  `Except.error` models the
`ValueError` that `now.replace(hour=..., minute=..., ...)` raises outside
any `try` block when a parsed field is out of range; `.ok none` models the
caught failures that the function turns into `return None`.  Fields finer
than one second are not modelled ("now" is taken at whole seconds). -/
def parse_time_with_timezone (timeStr tzStr : String) (nowEpoch : Int) :
    Except PyErr (Option (Int × String × String)) :=
  match zoneLookup tzStr with
  | none => .ok none
  | some (off, abb) =>
    match parseHourMinute timeStr with
    | none => .ok none
    | some (h, m) =>
      if h < 0 ∨ 23 < h ∨ m < 0 ∨ 59 < m then .error .valueError
      else
        .ok (some (resetEpoch off h m nowEpoch,
                   fmtDateTime (resetEpoch off h m nowEpoch + off) abb, tzStr))

/-- The spec's tagged `RateLimitSignal` outcome (§3). -/
inductive RateLimitSignal where
  | notDetected
  | detectedUnparseable
  | detectedResolved (epochSeconds : Int) (humanReadable : String) (timeZoneId : String)
deriving DecidableEq

deriving instance DecidableEq for Except

/-- The Resolver's component boundary: `main` of `rate_limit_parser.py`
with its exit codes 1 / 2 / 0 read back as the spec's tagged outcomes, and
an uncaught `ValueError` surfacing as `Except.error`. -/
def resolve (content : String) (nowEpoch : Int) : Except PyErr RateLimitSignal :=
  match find_rate_limit_pattern content with
  | (_, false) => .ok .notDetected
  | (none, true) => .ok .detectedUnparseable
  | (some (t, z), true) =>
    match parse_time_with_timezone t z nowEpoch with
    | .error e => .error e
    | .ok none => .ok .detectedUnparseable
    | .ok (some (e, h, tz)) => .ok (.detectedResolved e h tz)


/-! ## Auxiliary predicates used by the theorems -/

/-- Is a JSON value an object? -/
def jsonIsObj : Json → Bool
  | .obj _ => true
  | _ => false

/-- A string with no raw control character (below code point 32); such
strings round-trip through the renderer and the parser model. -/
def noCtrlStr (s : String) : Bool := s.data.all (fun c => 32 ≤ c.toNat)

mutual

/-- All strings (keys and values) in a JSON value are control-free. -/
def noCtrlV : Json → Bool
  | .null | .bool _ | .num _ => true
  | .str s => noCtrlStr s
  | .arr xs => noCtrlA xs
  | .obj ms => noCtrlO ms

/-- `noCtrlV` over an array spine. -/
def noCtrlA : JArr → Bool
  | .nil => true
  | .cons h t => noCtrlV h && noCtrlA t

/-- `noCtrlV` over an object spine. -/
def noCtrlO : JObj → Bool
  | .nil => true
  | .cons k v t => noCtrlStr k && noCtrlV v && noCtrlO t

end

mutual

/-- A fuel bound sufficient for `parseVal` on the rendering of a value. -/
def jfuel : Json → Nat
  | .null | .bool _ | .num _ | .str _ => 1
  | .arr xs => 1 + afuel xs
  | .obj ms => 1 + ofuel ms

/-- Fuel bound for `parseItems` on a rendered array spine. -/
def afuel : JArr → Nat
  | .nil => 1
  | .cons h t => 1 + jfuel h + afuel t

/-- Fuel bound for `parseMembers` on a rendered object spine. -/
def ofuel : JObj → Nat
  | .nil => 1
  | .cons _ v t => 1 + jfuel v + ofuel t

end

/-- A marker key made of ordinary characters: no quote, no backslash, no
brace (so its quoted form is rendered verbatim and contains no brace). -/
def plainKey (k : String) : Bool :=
  k.data.all (fun c => c ≠ '"' && c ≠ '\\' && c ≠ '\x7b' && c ≠ '\x7d')

mutual

/-- Does some string value inside the JSON value satisfy `p`? -/
def someStrV (p : String → Bool) : Json → Bool
  | .str s => p s
  | .arr xs => someStrA p xs
  | .obj ms => someStrO p ms
  | _ => false

/-- `someStrV` over an array spine. -/
def someStrA (p : String → Bool) : JArr → Bool
  | .nil => false
  | .cons h t => someStrV p h || someStrA p t

/-- `someStrV` over an object spine. -/
def someStrO (p : String → Bool) : JObj → Bool
  | .nil => false
  | .cons _ v t => someStrV p v || someStrO p t

end

/-- A string containing a closing brace or a double quote — the
characters that would confuse a depth counter unaware of string
literals. -/
def hasBraceOrQuote (s : String) : Bool :=
  s.data.any (fun c => c = '\x7d' || c = '\x7b' || c = '"')

/-- Two character lists that are equal up to ASCII case. -/
def lowEqL (s t : List Char) : Prop := s.map lowCh = t.map lowCh

/-- Relation between the optional captured groups of two searches: both
absent, or both present and equal up to ASCII case. -/
def capRel : Option (String × String) → Option (String × String) → Prop
  | none, none => True
  | some (a1, a2), some (b1, b2) => lowEqL a1.data b1.data ∧ lowEqL a2.data b2.data
  | _, _ => False

/-- Relate two optional results: both absent, or both present and
related. -/
def optRel (r : α → α → Prop) : Option α → Option α → Prop
  | none, none => True
  | some a, some b => r a b
  | _, _ => False

/-- Componentwise relation on pairs. -/
def prodRel (r1 : α → α → Prop) (r2 : β → β → Prop) : α × β → α × β → Prop
  | (a1, a2), (b1, b2) => r1 a1 b1 ∧ r2 a2 b2

/-- Lockstep relation on lists. -/
def listRel (r : α → α → Prop) : List α → List α → Prop
  | [], [] => True
  | a :: as, b :: bs => r a b ∧ listRel r as bs
  | _, _ => False


/-! ## Helper lemmas about the Resolver -/

/-- The rollover + buffer arithmetic always lands strictly after "now":
either the candidate was already in the future, or a full day plus the
buffer is added to an instant at most one day in the past. -/
theorem resetEpoch_future (off h m now : Int) (hh : 0 ≤ h) (hm2 : 0 ≤ m) :
    now < resetEpoch off h m now := by
  simp only [resetEpoch, RATE_LIMIT_BUFFER_SECONDS]
  have h1 : 0 ≤ (now + off) % 86400 := Int.emod_nonneg _ (by norm_num)
  have h2 : (now + off) % 86400 < 86400 := Int.emod_lt_of_pos _ (by norm_num)
  split <;> omega

/-- Whenever `parse_time_with_timezone` resolves, the epoch it returns is
strictly after "now". -/
theorem parse_time_future (t z : String) (now e : Int) (hu tz : String)
    (hp : parse_time_with_timezone t z now = .ok (some (e, hu, tz))) : now < e := by
  unfold parse_time_with_timezone at hp
  split at hp
  · exact absurd hp (by simp)
  · split at hp
    · exact absurd hp (by simp)
    · next h m heq =>
      split at hp
      · exact absurd hp (by simp)
      · next hcond =>
        simp only [Except.ok.injEq, Option.some.injEq, Prod.mk.injEq] at hp
        obtain ⟨he, -⟩ := hp
        exact he ▸ resetEpoch_future _ h m now (by omega) (by omega)

/-! ## Claim theorems: the Rate-Limit Resolver -/

/-- Claim C2, evidence of refutation: the detection phase captures
"13pm" / "UTC" (pattern 1 allows a two-digit hour), the 12-hour
conversion turns 13 into 25, and `now.replace(hour=25)` raises a
`ValueError` outside every `try` block — the error escapes the component
boundary instead of downgrading to `DetectedUnparseable`.  Likewise
"99:99" in the 24-hour branch. -/
theorem c2_uncaught_value_error :
    resolve "resets 13pm (UTC)" 1735725600 = .error .valueError ∧
    resolve "resets 99:99 (UTC)" 1735725600 = .error .valueError :=
  ⟨by decide, by decide⟩

/-- Claim C4: whenever the Resolver returns `DetectedResolved`, the
returned epoch is strictly in the future relative to "now" (rollover rule
plus 60-second buffer). -/
theorem c4_resolved_is_future (content : String) (now e : Int) (hu tz : String)
    (hr : resolve content now = .ok (.detectedResolved e hu tz)) : now < e := by
  unfold resolve at hr
  split at hr
  · exact absurd hr (by simp)
  · exact absurd hr (by simp)
  · split at hr
    · exact absurd hr (by simp)
    · exact absurd hr (by simp)
    · next heq =>
      simp only [Except.ok.injEq, RateLimitSignal.detectedResolved.injEq] at hr
      obtain ⟨he, -, -⟩ := hr
      exact he ▸ parse_time_future _ _ now _ _ _ heq

/-- Witness for C4 at a concrete input. -/
theorem c4_witness : (1735725600 : Int) < 1735754460 :=
  c4_resolved_is_future "resets 6pm (UTC)" 1735725600 1735754460
    "2025-01-01 18:01:00 UTC" "UTC" (by decide)

/-- Claim C5, counterexample to the claim as stated: the bare phrase in
the source is `you'?ve hit your limit`, not "hit your limit"; a short
text containing only "hit your limit" with no time-bearing match yields
`NotDetected`, not `DetectedUnparseable`. -/
theorem c5_cex : resolve "hit your limit" 0 = .ok .notDetected := by decide

/-- Claim C5 as amended: with "you've hit your limit" (apostrophe
optional) in place of "hit your limit" in the phrase list — for a text
with no time-bearing match, a bare-phrase hit yields
`DetectedUnparseable` when the length is at most 500 and `NotDetected`
when the length exceeds 500 even if a phrase is present. -/
theorem c5_amended_bare_threshold (content : String) (now : Int)
    (hns : timeSearch content.data = none) :
    (content.length ≤ 500 → bareHit content.data = true →
      resolve content now = .ok .detectedUnparseable) ∧
    (500 < content.length → resolve content now = .ok .notDetected) := by
  have hfind : find_rate_limit_pattern content =
      (if content.length ≤ BARE_PATTERN_MAX_CONTENT_SIZE && bareHit content.data
       then (none, true) else (none, false)) := by
    unfold find_rate_limit_pattern
    rw [hns]
  constructor
  · intro hlen hbare
    unfold resolve
    rw [hfind, if_pos (by simp [BARE_PATTERN_MAX_CONTENT_SIZE, hlen, hbare])]
  · intro hlen
    unfold resolve
    rw [hfind, if_neg (by simp [BARE_PATTERN_MAX_CONTENT_SIZE]; omega)]

/-- Witness for C5 (amended) at a concrete input. -/
theorem c5_witness : resolve "you\x27ve hit your limit" 0 = .ok .detectedUnparseable :=
  (c5_amended_bare_threshold "you\x27ve hit your limit" 0 (by decide)).1
    (by decide) (by decide)

/-- Claim C8: "resets 6pm (UTC)" at 2025-01-01 10:00 UTC resolves to
2025-01-01 18:01:00 UTC (same day, buffer applied); at 2025-01-01 20:00
UTC it resolves to 2025-01-02 18:01:00 UTC (rolled over). -/
theorem c8_six_pm_utc_examples :
    resolve "resets 6pm (UTC)" 1735725600 =
      .ok (.detectedResolved 1735754460 "2025-01-01 18:01:00 UTC" "UTC") ∧
    resolve "resets 6pm (UTC)" 1735761600 =
      .ok (.detectedResolved 1735840860 "2025-01-02 18:01:00 UTC" "UTC") :=
  ⟨by decide, by decide⟩

/-- Claim C9: the 12-hour to 24-hour conversion maps 12am to 0, adds 12
to 1-11 under pm, keeps 12pm at 12, and keeps 1-11 under am unchanged. -/
theorem c9_twelve_hour_conversion (h : Int) (h1 : 1 ≤ h) (h2 : h ≤ 12) :
    convert12To24 12 false true = 0 ∧
    convert12To24 12 true false = 12 ∧
    (h ≤ 11 → convert12To24 h true false = h + 12) ∧
    (h ≤ 11 → convert12To24 h false true = h) := by
  refine ⟨by decide, by decide, fun h11 => ?_, fun h11 => ?_⟩
  · unfold convert12To24
    rw [if_pos ⟨rfl, by omega⟩]
  · unfold convert12To24
    rw [if_neg (by simp), if_neg (fun hc => absurd hc.2 (by omega))]

/-- Witness for C9 at a concrete hour. -/
theorem c9_witness :
    convert12To24 5 true false = 17 ∧ convert12To24 5 false true = 5 := by
  have h := c9_twelve_hour_conversion 5 (by norm_num) (by norm_num)
  exact ⟨h.2.2.1 (by norm_num), h.2.2.2 (by norm_num)⟩

/-! ## Claim theorems: the Structured-Block Locator (first group) -/

/-- Claim C7: if the fenced-block pass finds a qualifying block, the
Locator returns exactly that block — the bracket-matching pass (and with
it any bare occurrence) is never consulted. -/
theorem c7_fenced_block_priority (content key b : String)
    (hf : fencedGo (content.data.length + 1) content.data key = some b) :
    find_json_containing content key = some b := by
  unfold find_json_containing
  rw [hf]

/-- Witness for C7: a text holding both a fenced block and a later bare
object with the same key returns the fenced block's content. -/
theorem c7_witness :
    find_json_containing "```json\n\x7b\"K\":1\x7d\n``` and \x7b\"K\":2\x7d" "K" =
      some "\x7b\"K\":1\x7d" :=
  c7_fenced_block_priority _ _ _ (by decide)

/-- Every block the fenced pass returns parses as JSON and contains the
key in the Python-membership sense: the pass checks exactly this before
returning. -/
theorem fencedGo_sound (fuel : Nat) : ∀ cs key r, fencedGo fuel cs key = some r →
    ∃ v, Json.parse r = some v ∧ pyIn key v = some true := by
  induction fuel with
  | zero => intro cs key r h; simp [fencedGo] at h
  | succ n ih =>
    intro cs key r h
    simp only [fencedGo] at h
    split at h
    · simp at h
    · split at h
      · simp at h
      · split at h
        · split at h
          · split at h
            · cases h
              exact ⟨_, by assumption, by assumption⟩
            · exact ih _ _ _ h
          · exact ih _ _ _ h
        · exact ih _ _ _ h

/-- Every candidate the bracket pass returns parses as JSON and contains
the key in the Python-membership sense. -/
theorem bracketPass_sound (content key r : String)
    (h : bracketPass content key = some r) :
    ∃ v, Json.parse r = some v ∧ pyIn key v = some true := by
  simp only [bracketPass] at h
  split at h
  · simp at h
  · split at h
    · split at h
      · simp at h
      · split at h
        · split at h
          · cases h
            exact ⟨_, by assumption, by assumption⟩
          · simp at h
        · simp at h
    · simp at h

/-- Claim C3, counterexample to the claim as stated: a fenced block whose
content is the JSON array `["K"]` is returned by the Locator (Python's
`in` on a list finds the string element), yet the returned value is not
an object with the key as a top-level key. -/
theorem c3_cex :
    find_json_containing "```json\n[\"K\"]\n```" "K" = some "[\"K\"]" ∧
    (Json.parse "[\"K\"]").map jsonIsObj = some false :=
  ⟨by decide, by decide⟩

/-- Claim C3 as amended: whenever the Locator returns successfully, the
returned text is syntactically valid JSON whose value contains the marker
key in the Python-membership sense — as a top-level key when the value is
an object (always the case for the bracket pass), but possibly as an
array element or substring for a fenced block. -/
theorem c3_amended_member_guarantee (content key r : String)
    (h : find_json_containing content key = some r) :
    ∃ v, Json.parse r = some v ∧ pyIn key v = some true := by
  unfold find_json_containing at h
  split at h
  · next b hb => cases h; exact fencedGo_sound _ _ _ _ hb
  · exact bracketPass_sound _ _ _ h

/-- Witness for C3 (amended) at a concrete input. -/
theorem c3_witness :
    ∃ v, Json.parse "\x7b\"K\":2\x7d" = some v ∧ pyIn "K" v = some true :=
  c3_amended_member_guarantee "pre \x7b\"K\":2\x7d post" "K" _ (by decide)

/-! ## The bracket-matching scan over rendered JSON -/

/-- Every character `natDigitsAux` emits is a digit character. -/
theorem natDigitsAux_digit : ∀ (f n : Nat), ∀ c ∈ natDigitsAux f n, ∃ d, d < 10 ∧ c = digitChQ d := by
  intro f
  induction f with
  | zero => intro n c hc; simp [natDigitsAux] at hc
  | succ f ih =>
    intro n c hc
    unfold natDigitsAux at hc
    split at hc
    · next hn =>
      simp only [List.mem_singleton] at hc
      exact ⟨n, hn, hc⟩
    · rw [List.mem_append] at hc
      rcases hc with hc | hc
      · exact ih _ c hc
      · simp only [List.mem_singleton] at hc
        exact ⟨n % 10, Nat.mod_lt _ (by norm_num), hc⟩

/-- Digit characters are inert for the scanner. -/
theorem digitChQ_plain (d : Nat) (hd : d < 10) :
    digitChQ d ≠ '"' ∧ digitChQ d ≠ '\x7b' ∧ digitChQ d ≠ '\x7d' := by
  interval_cases d <;> exact ⟨by decide, by decide, by decide⟩

/-- The characters of a rendered integer are inert for the scanner. -/
theorem intChars_plain (n : Int) : ∀ c ∈ intChars n, c ≠ '"' ∧ c ≠ '\x7b' ∧ c ≠ '\x7d' := by
  intro c hc
  unfold intChars at hc
  have digits : ∀ m : Nat, c ∈ natDigits m → c ≠ '"' ∧ c ≠ '\x7b' ∧ c ≠ '\x7d' := by
    intro m hm
    obtain ⟨d, hd, rfl⟩ := natDigitsAux_digit _ _ c hm
    exact digitChQ_plain d hd
  split at hc
  · rcases List.mem_cons.mp hc with rfl | hc
    · exact ⟨by decide, by decide, by decide⟩
    · exact digits _ hc
  · exact digits _ hc

/-- A run of scanner-inert characters just advances the index. -/
theorem scanB_plain : ∀ (cs rest : List Char) (i : Nat) (d : Int),
    (∀ c ∈ cs, c ≠ '"' ∧ c ≠ '\x7b' ∧ c ≠ '\x7d') →
    scanB (cs ++ rest) i d false false = scanB rest (i + cs.length) d false false := by
  intro cs
  induction cs with
  | nil => intro rest i d _; simp
  | cons c cs ih =>
    intro rest i d h
    obtain ⟨h1, h2, h3⟩ := h c (List.mem_cons_self c cs)
    rw [List.cons_append, scanB]
    simp only [Bool.false_eq_true, if_false, Bool.and_false, h1, h2, h3, ite_false,
      if_neg (fun hf : False => hf.elim)]
    rw [ih rest (i + 1) d (fun x hx => h x (List.mem_cons_of_mem c hx))]
    congr 1
    simp only [List.length_cons]
    omega

/-- Inside a string literal the scanner skips the escaped body (escapes
pair off, braces and quotes in the body never reach the depth logic) and
leaves string mode exactly at the closing quote. -/
theorem scanB_escBody_run : ∀ (cs rest : List Char) (i : Nat) (d : Int),
    scanB (escBody cs ++ '"' :: rest) i d true false =
      scanB rest (i + (escBody cs).length + 1) d false false := by
  intro cs
  induction cs with
  | nil =>
    intro rest i d
    simp [escBody, scanB]
  | cons c cs ih =>
    intro rest i d
    by_cases hc : c = '"' ∨ c = '\\'
    · have he : escBody (c :: cs) = '\\' :: c :: escBody cs := by
        rw [escBody]; exact if_pos hc
      rw [he]
      simp only [List.cons_append]
      rw [scanB]
      simp only [Bool.false_eq_true, if_false, ite_false, if_neg (fun hf : False => hf.elim)]
      norm_num
      rw [scanB]
      norm_num
      rw [ih rest (i + 1 + 1) d]
      congr 1
      omega
    · push_neg at hc
      obtain ⟨hc1, hc2⟩ := hc
      have he : escBody (c :: cs) = c :: escBody cs := by
        rw [escBody]; exact if_neg (by tauto)
      rw [he, List.cons_append, scanB]
      simp only [hc1, hc2, Bool.false_eq_true, if_false, ite_false, decide_eq_true_eq,
        if_neg (fun hf : False => hf.elim)]
      norm_num
      rw [ih rest (i + 1) d]
      congr 1
      omega

/-- One scanner-inert character. -/
theorem scanB_one (c : Char) (h1 : c ≠ '"') (h2 : c ≠ '\x7b') (h3 : c ≠ '\x7d')
    (X : List Char) (i : Nat) (d : Int) :
    scanB (c :: X) i d false false = scanB X (i + 1) d false false := by
  have := scanB_plain [c] X i d (by
    intro x hx
    simp only [List.mem_singleton] at hx
    subst hx
    exact ⟨h1, h2, h3⟩)
  simpa using this

/-- Scanning a complete rendered string literal from normal mode returns
to normal mode just past it. -/
theorem scanB_strLit (s : String) (rest : List Char) (i : Nat) (d : Int) :
    scanB (renderStrLit s ++ rest) i d false false =
      scanB rest (i + (renderStrLit s).length) d false false := by
  rw [renderStrLit]
  simp only [List.cons_append, List.append_assoc, List.singleton_append]
  rw [scanB]
  norm_num
  rw [scanB_escBody_run]
  congr 1
  omega

/-- An opening brace in normal mode increments the depth. -/
theorem scanB_open (X : List Char) (i : Nat) (d : Int) :
    scanB ('\x7b' :: X) i d false false = scanB X (i + 1) (d + 1) false false := by
  rw [scanB, if_neg (by decide), if_neg (by decide), if_neg (by decide), if_neg (by decide),
    if_pos (by decide)]

/-- A closing brace that does not end the block decrements the depth. -/
theorem scanB_close (X : List Char) (i : Nat) (d : Int) (hd : ¬d - 1 = 0) :
    scanB ('\x7d' :: X) i d false false = scanB X (i + 1) (d - 1) false false := by
  rw [scanB, if_neg (by decide), if_neg (by decide), if_neg (by decide), if_neg (by decide),
    if_neg (by decide), if_pos (by decide), if_neg hd]

/-- The closing brace that returns the depth to zero ends the scan. -/
theorem scanB_close_done (X : List Char) (i : Nat) (d : Int) (hd : d - 1 = 0) :
    scanB ('\x7d' :: X) i d false false = some (i + 1) := by
  rw [scanB, if_neg (by decide), if_neg (by decide), if_neg (by decide), if_neg (by decide),
    if_neg (by decide), if_pos (by decide), if_pos hd]

mutual

/-- Scanning the rendering of any JSON value from normal mode at depth at
least 1 passes over it entirely: nested braces re-balance, and braces or
quotes inside string literals never touch the depth counter. -/
theorem scanB_val (j : Json) (rest : List Char) (i : Nat) (d : Int) (hd : 1 ≤ d) :
    scanB (renderChars j ++ rest) i d false false =
      scanB rest (i + (renderChars j).length) d false false := by
  cases j with
  | null =>
    apply scanB_plain
    intro c hc
    simp only [renderChars] at hc
    fin_cases hc <;> exact ⟨by decide, by decide, by decide⟩
  | bool b =>
    cases b <;>
    · apply scanB_plain
      intro c hc
      simp only [renderChars] at hc
      fin_cases hc <;> exact ⟨by decide, by decide, by decide⟩
  | num n =>
    apply scanB_plain
    intro c hc
    simp only [renderChars] at hc
    exact intChars_plain n c hc
  | str s =>
    simp only [renderChars]
    exact scanB_strLit s rest i d
  | arr xs =>
    simp only [renderChars, List.cons_append, List.append_assoc, List.singleton_append,
      List.nil_append, List.length_cons, List.length_append, List.length_singleton,
      List.length_nil]
    rw [scanB_one '[' (by decide) (by decide) (by decide)]
    rw [scanB_items xs (']' :: rest) (i + 1) d hd]
    rw [scanB_one ']' (by decide) (by decide) (by decide)]
    congr 1
    omega
  | obj ms =>
    simp only [renderChars, List.cons_append, List.append_assoc, List.singleton_append,
      List.nil_append, List.length_cons, List.length_append, List.length_singleton,
      List.length_nil]
    rw [scanB_open]
    rw [scanB_membs ms ('\x7d' :: rest) (i + 1) (d + 1) (by omega)]
    rw [scanB_close _ _ _ (by omega)]
    congr 1 <;> omega

/-- `scanB_val` over a rendered array spine. -/
theorem scanB_items (xs : JArr) (rest : List Char) (i : Nat) (d : Int) (hd : 1 ≤ d) :
    scanB (renderItems xs ++ rest) i d false false =
      scanB rest (i + (renderItems xs).length) d false false := by
  cases xs with
  | nil => simp [renderItems]
  | cons h t =>
    cases t with
    | nil =>
      simp only [renderItems]
      exact scanB_val h rest i d hd
    | cons h2 t2 =>
      simp only [renderItems, List.append_assoc, List.cons_append, List.length_append,
        List.length_cons]
      rw [scanB_val h _ i d hd]
      rw [scanB_one ',' (by decide) (by decide) (by decide)]
      rw [scanB_items (.cons h2 t2) rest _ d hd]
      congr 1
      omega

/-- `scanB_val` over a rendered object spine. -/
theorem scanB_membs (ms : JObj) (rest : List Char) (i : Nat) (d : Int) (hd : 1 ≤ d) :
    scanB (renderMembers ms ++ rest) i d false false =
      scanB rest (i + (renderMembers ms).length) d false false := by
  cases ms with
  | nil => simp [renderMembers]
  | cons k v t =>
    cases t with
    | nil =>
      simp only [renderMembers, List.append_assoc, List.cons_append, List.length_append,
        List.length_cons]
      rw [scanB_strLit k _ i d]
      rw [scanB_one ':' (by decide) (by decide) (by decide)]
      rw [scanB_val v rest _ d hd]
      congr 1
      omega
    | cons k2 v2 t2 =>
      simp only [renderMembers, List.append_assoc, List.cons_append, List.length_append,
        List.length_cons]
      rw [scanB_strLit k _ i d]
      rw [scanB_one ':' (by decide) (by decide) (by decide)]
      rw [scanB_val v _ _ d hd]
      rw [scanB_one ',' (by decide) (by decide) (by decide)]
      rw [scanB_membs (.cons k2 v2 t2) rest _ d hd]
      congr 1
      omega

end

/-- From depth 0, the scan of a rendered object ends exactly at its
closing brace, returning the index one past the full object. -/
theorem scanB_top (ms : JObj) (rest : List Char) (i : Nat) :
    scanB (renderChars (Json.obj ms) ++ rest) i 0 false false =
      some (i + (renderChars (Json.obj ms)).length) := by
  simp only [renderChars, List.cons_append, List.append_assoc, List.singleton_append,
    List.nil_append, List.length_cons, List.length_append, List.length_singleton,
    List.length_nil]
  rw [scanB_open]
  rw [scanB_membs ms ('\x7d' :: rest) (i + 1) (0 + 1) (by omega)]
  rw [scanB_close_done _ _ _ (by omega)]
  congr 1
  omega

/-- Claim C6: for every JSON object whose string values contain brace or
quote characters (escaped in the rendering), the bracket-matching scan
does not let braces inside string literals affect the depth counter and
does not let an escaped quote toggle the in-string flag: started at the
object's opening brace it ends exactly one past the object's closing
brace, returning the full object rather than a truncated prefix. -/
theorem c6_scan_full_object (ms : JObj) (rest : List Char) (i : Nat)
    (hsp : someStrO hasBraceOrQuote ms = true) :
    scanB (renderChars (Json.obj ms) ++ rest) i 0 false false =
      some (i + (renderChars (Json.obj ms)).length) :=
  scanB_top ms rest i

/-- Witness for C6 at the spec's own example object. -/
theorem c6_witness :
    scanB (renderChars (Json.obj (JObj.cons "RALPH_STATUS" (Json.str "a \x7d b \" c")
        JObj.nil)) ++ []) 0 0 false false =
      some (0 + (renderChars (Json.obj (JObj.cons "RALPH_STATUS" (Json.str "a \x7d b \" c")
        JObj.nil))).length) :=
  c6_scan_full_object _ [] 0 (by decide)

/-! ## Round trip: parsing a rendered value gives the value back -/

/-- `natDigitsAux` ignores its fuel as long as the fuel exceeds the
number. -/
theorem natDigitsAux_fuel : ∀ (f n : Nat), n < f → ∀ f', n < f' →
    natDigitsAux f n = natDigitsAux f' n := by
  intro f
  induction f with
  | zero => intro n hn; omega
  | succ f ih =>
    intro n hn f' hn'
    cases f' with
    | zero => omega
    | succ f' =>
      unfold natDigitsAux
      by_cases h10 : n < 10
      · rw [if_pos h10, if_pos h10]
      · rw [if_neg h10, if_neg h10]
        have hd : n / 10 < n := Nat.div_lt_self (by omega) (by omega)
        rw [ih (n / 10) (by omega) f' (by omega)]

/-- The recurrence of `natDigits` for numbers of two or more digits. -/
theorem natDigits_recurrence (n : Nat) (h : ¬n < 10) :
    natDigits n = natDigits (n / 10) ++ [digitChQ (n % 10)] := by
  unfold natDigits
  conv_lhs => rw [natDigitsAux]
  rw [if_neg h]
  have hd : n / 10 < n := Nat.div_lt_self (by omega) (by omega)
  rw [natDigitsAux_fuel n (n / 10) (by omega) (n / 10 + 1) (by omega)]

/-- `natDigits` of a small number is one digit. -/
theorem natDigits_small (n : Nat) (h : n < 10) : natDigits n = [digitChQ n] := by
  unfold natDigits
  rw [natDigitsAux]
  rw [if_pos h]

/-- `natDigits` never returns the empty list. -/
theorem natDigits_ne_nil (n : Nat) : natDigits n ≠ [] := by
  by_cases h : n < 10
  · rw [natDigits_small n h]; simp
  · rw [natDigits_recurrence n h]; simp

/-- Digit values of digit characters. -/
theorem digVal_digitChQ (d : Nat) (h : d < 10) : digVal (digitChQ d) = d := by
  interval_cases d <;> decide

/-- Digit characters satisfy the digit test. -/
theorem isDigCh_digitChQ (d : Nat) (h : d < 10) : isDigCh (digitChQ d) = true := by
  interval_cases d <;> decide

/-- Every character of `natDigits` is a digit. -/
theorem natDigits_all_dig (n : Nat) : ∀ c ∈ natDigits n, isDigCh c = true := by
  intro c hc
  obtain ⟨d, hd, rfl⟩ := natDigitsAux_digit _ _ c hc
  exact isDigCh_digitChQ d hd

/-- `digitsVal` unfolds over a final digit. -/
theorem digitsVal_append_one (ds : List Char) (c : Char) :
    digitsVal (ds ++ [c]) = digitsVal ds * 10 + digVal c := by
  simp [digitsVal, List.foldl_append]

/-- Parsing back the digits of a natural number gives the number. -/
theorem digitsVal_natDigits (n : Nat) : digitsVal (natDigits n) = n := by
  induction n using Nat.strong_induction_on with
  | _ n ih =>
    by_cases h : n < 10
    · rw [natDigits_small n h]
      have := digVal_digitChQ n h
      simp [digitsVal, this]
    · rw [natDigits_recurrence n h, digitsVal_append_one,
        ih (n / 10) (Nat.div_lt_self (by omega) (by omega)),
        digVal_digitChQ (n % 10) (Nat.mod_lt _ (by omega))]
      omega

/-- The leading digit of a positive number is not the zero character. -/
theorem natDigits_head_ne_zero : ∀ n : Nat, 0 < n → (natDigits n).headD 'x' ≠ '0' := by
  intro n
  induction n using Nat.strong_induction_on with
  | _ n ih =>
    intro hn
    by_cases h : n < 10
    · rw [natDigits_small n h]
      interval_cases n <;> decide
    · rw [natDigits_recurrence n h]
      have hpos : 0 < n / 10 := Nat.div_pos (by omega) (by omega)
      have ihh := ih (n / 10) (Nat.div_lt_self (by omega) (by omega)) hpos
      cases hd : natDigits (n / 10) with
      | nil => exact absurd hd (natDigits_ne_nil _)
      | cons c cs =>
        rw [hd] at ihh
        simpa using ihh

/-- `takeWhile` over a run of satisfying characters followed by a
boundary that fails the test (or nothing) returns exactly the run. -/
theorem takeWhile_run (p : Char → Bool) : ∀ (ds rest : List Char),
    (∀ c ∈ ds, p c = true) →
    (rest = [] ∨ ∃ c cs, rest = c :: cs ∧ p c = false) →
    (ds ++ rest).takeWhile p = ds ∧ (ds ++ rest).dropWhile p = rest := by
  intro ds
  induction ds with
  | nil =>
    intro rest _ hrest
    rcases hrest with rfl | ⟨c, cs, rfl, hc⟩
    · simp
    · simp [List.takeWhile_cons, List.dropWhile_cons, hc]
  | cons d ds ih =>
    intro rest hall hrest
    have hd := hall d (List.mem_cons_self d ds)
    have := ih rest (fun c hc => hall c (List.mem_cons_of_mem d hc)) hrest
    simp only [List.cons_append, List.takeWhile_cons, List.dropWhile_cons, hd]
    simp [this.1, this.2]

/-- The boundary fact used for numbers: the remainder starts with a
non-digit (or is empty). -/
theorem num_boundary (rest : List Char) (h : isDigCh (rest.headD ' ') = false) :
    rest = [] ∨ ∃ c cs, rest = c :: cs ∧ isDigCh c = false := by
  cases rest with
  | nil => exact Or.inl rfl
  | cons c cs => exact Or.inr ⟨c, cs, rfl, by simpa using h⟩

/-- Parsing back the rendered digits of a natural number, with a
non-digit boundary, yields the number and the remainder. -/
theorem parseNatDigits_render (n : Nat) (rest : List Char)
    (hrest : isDigCh (rest.headD ' ') = false) :
    parseNatDigits (natDigits n ++ rest) = some (n, rest) := by
  have hsplit := takeWhile_run isDigCh (natDigits n) rest (natDigits_all_dig n)
    (num_boundary rest hrest)
  unfold parseNatDigits
  rw [hsplit.1, hsplit.2]
  rw [if_neg (by simpa using natDigits_ne_nil n)]
  have hlead : (1 < (natDigits n).length && (natDigits n).headD 'x' = '0') = false := by
    by_cases hn : n = 0
    · subst hn
      rw [natDigits_small 0 (by omega)]
      decide
    · simp only [Bool.and_eq_false_iff]
      right
      simpa using natDigits_head_ne_zero n (by omega)
  rw [hlead]
  simp [digitsVal_natDigits]

/-- A digit character differs from any non-digit character. -/
theorem ne_of_digit {c x : Char} (h1 : isDigCh c = true) (h2 : isDigCh x = false) :
    c ≠ x := by
  intro he
  subst he
  rw [h1] at h2
  cases h2

/-- Digit characters are not whitespace. -/
theorem digit_not_ws {c : Char} (h : isDigCh c = true) : wsJ c = false := by
  by_contra hw
  have hw2 : wsJ c = true := by simpa using hw
  have : ((c = ' ' ∨ c = '\t') ∨ c = '\n') ∨ c = '\r' := by
    simpa [wsJ, decide_eq_true_eq] using hw2
  rcases this with ((rfl | rfl) | rfl) | rfl <;> simp [isDigCh] at h

/-- `skipJ` does not move over a non-whitespace head. -/
theorem skipJ_cons_of (c : Char) (h : wsJ c = false) (cs : List Char) :
    skipJ (c :: cs) = c :: cs := by
  simp [skipJ, List.dropWhile_cons, h]

/-- Parsing back a rendered integer numeral. -/
theorem parseNumFrom_render (n : Int) (rest : List Char)
    (hrest : isDigCh (rest.headD ' ') = false) :
    parseNumFrom (intChars n ++ rest) = some (Json.num n, rest) := by
  unfold parseNumFrom intChars
  by_cases hn : n < 0
  · rw [if_pos hn]
    simp only [List.cons_append, List.headD_cons, List.tail_cons]
    rw [if_pos trivial, parseNatDigits_render n.natAbs rest hrest]
    have h2 : -((n.natAbs : Int)) = n := by omega
    show some (Json.num (-((n.natAbs : Int))), rest) = some (Json.num n, rest)
    rw [h2]
  · rw [if_neg hn]
    cases hd : natDigits n.toNat with
    | nil => exact absurd hd (natDigits_ne_nil _)
    | cons c cs =>
      have hdig : isDigCh c = true :=
        natDigits_all_dig _ c (by rw [hd]; exact List.mem_cons_self c cs)
      rw [List.cons_append, if_neg (by
        simp only [List.headD_cons]
        exact ne_of_digit hdig (by decide))]
      rw [← List.cons_append, ← hd, parseNatDigits_render n.toNat rest hrest]
      have : ((n.toNat : Int)) = n := by omega
      simp [this]

/-- Parsing back a rendered (escaped) string body: each escape decodes to
its source character and the scan ends at the closing quote. -/
theorem parseStrBody_render : ∀ (cs rest : List Char),
    (∀ c ∈ cs, 32 ≤ c.toNat) →
    parseStrBody (escBody cs ++ '"' :: rest) = some (cs, rest) := by
  intro cs
  induction cs with
  | nil =>
    intro rest _
    simp [escBody, parseStrBody.eq_def]
  | cons c cs ih =>
    intro rest hall
    have hc32 := hall c (List.mem_cons_self c cs)
    have ihh := ih rest (fun x hx => hall x (List.mem_cons_of_mem c hx))
    by_cases hc : c = '"' ∨ c = '\\'
    · have he : escBody (c :: cs) = '\\' :: c :: escBody cs := by
        rw [escBody]; exact if_pos hc
      rw [he]
      simp only [List.cons_append]
      rcases hc with rfl | rfl
      · conv_lhs => rw [parseStrBody.eq_def]
        simp [escCharJ, ihh]
      · conv_lhs => rw [parseStrBody.eq_def]
        simp [escCharJ, ihh]
    · push_neg at hc
      have he : escBody (c :: cs) = c :: escBody cs := by
        rw [escBody]; exact if_neg (by tauto)
      rw [he, List.cons_append]
      conv_lhs => rw [parseStrBody.eq_def]
      simp only [ihh, if_neg hc.1, if_neg hc.2,
        if_neg (show ¬c.toNat < 32 by omega)]
      rfl

/-- The first character of any rendered JSON value: never whitespace and
never a closing delimiter. -/
theorem renderChars_head (j : Json) : ∃ c cs', renderChars j = c :: cs' ∧ wsJ c = false ∧
    c ≠ ']' ∧ c ≠ '\x7d' := by
  cases j with
  | null => exact ⟨'n', _, rfl, by decide, by decide, by decide⟩
  | bool b =>
    cases b with
    | false => exact ⟨'f', _, rfl, by decide, by decide, by decide⟩
    | true => exact ⟨'t', _, rfl, by decide, by decide, by decide⟩
  | num n =>
    show ∃ c cs', intChars n = c :: cs' ∧ _
    unfold intChars
    by_cases hn : n < 0
    · rw [if_pos hn]
      exact ⟨'-', _, rfl, by decide, by decide, by decide⟩
    · rw [if_neg hn]
      cases hd : natDigits n.toNat with
      | nil => exact absurd hd (natDigits_ne_nil _)
      | cons c cs =>
        have hdig : isDigCh c = true :=
          natDigits_all_dig _ c (by rw [hd]; exact List.mem_cons_self c cs)
        exact ⟨c, cs, rfl, digit_not_ws hdig, ne_of_digit hdig (by decide),
          ne_of_digit hdig (by decide)⟩
  | str s => exact ⟨'"', _, rfl, by decide, by decide, by decide⟩
  | arr xs => exact ⟨'[', _, rfl, by decide, by decide, by decide⟩
  | obj ms => exact ⟨'\x7b', _, rfl, by decide, by decide, by decide⟩

/-- The fuel bounds are positive. -/
theorem jfuel_pos (j : Json) : 1 ≤ jfuel j := by
  cases j <;> simp [jfuel]

/-- The array fuel bound is positive. -/
theorem afuel_pos (xs : JArr) : 1 ≤ afuel xs := by
  cases xs <;> simp [afuel] <;> omega

/-- The object fuel bound is positive. -/
theorem ofuel_pos (ms : JObj) : 1 ≤ ofuel ms := by
  cases ms <;> simp [ofuel] <;> omega

/-- Every JSON value has positive size. -/
theorem json_sizeOf_pos (j : Json) : 1 ≤ sizeOf j := by
  cases j <;> simp_arith

/-- Every array spine has positive size. -/
theorem jarr_sizeOf_pos (t : JArr) : 1 ≤ sizeOf t := by
  cases t <;> simp_arith

/-- Every object spine has positive size. -/
theorem jobj_sizeOf_pos (t : JObj) : 1 ≤ sizeOf t := by
  cases t <;> simp_arith

/-- Round trip, proved by strong induction on size: parsing the rendering
of a value (or of a nonempty array / object spine) with enough fuel,
control-free strings, and no digit immediately following a numeral,
returns exactly the value and the untouched remainder. -/
theorem render_roundtrip_all (N : Nat) :
    (∀ j : Json, sizeOf j ≤ N → ∀ fuel : Nat, jfuel j ≤ fuel →
      noCtrlV j = true → ∀ rest : List Char,
      (∀ n, j = Json.num n → isDigCh (rest.headD ' ') = false) →
      parseVal fuel (renderChars j ++ rest) = some (j, rest)) ∧
    (∀ (h : Json) (t : JArr), sizeOf h + sizeOf t ≤ N → ∀ fuel : Nat,
      afuel (.cons h t) ≤ fuel → noCtrlA (.cons h t) = true → ∀ rest : List Char,
      parseItems fuel (renderItems (.cons h t) ++ ']' :: rest) = some (.cons h t, rest)) ∧
    (∀ (k : String) (v : Json) (t : JObj), sizeOf v + sizeOf t ≤ N → ∀ fuel : Nat,
      ofuel (.cons k v t) ≤ fuel → noCtrlO (.cons k v t) = true → ∀ rest : List Char,
      parseMembers fuel (renderMembers (.cons k v t) ++ '\x7d' :: rest) =
        some (.cons k v t, rest)) := by
  induction N using Nat.strong_induction_on with
  | _ N ih =>
    refine ⟨?_, ?_, ?_⟩
    · intro j hN fuel hf hc rest hrest
      obtain ⟨f, rfl⟩ : ∃ f, fuel = f + 1 := ⟨fuel - 1, by have := jfuel_pos j; omega⟩
      cases j with
      | null =>
        simp only [renderChars, List.cons_append, List.nil_append]
        simp [parseVal, skipJ_cons_of 'n' (by decide)]
      | bool b =>
        cases b with
        | false =>
          simp only [renderChars, List.cons_append, List.nil_append]
          simp [parseVal, skipJ_cons_of 'f' (by decide)]
        | true =>
          simp only [renderChars, List.cons_append, List.nil_append]
          simp [parseVal, skipJ_cons_of 't' (by decide)]
      | num n =>
        have hrest' := hrest n rfl
        have hhead : ∃ c cs', intChars n = c :: cs' ∧ (c = '-' ∨ isDigCh c = true) := by
          unfold intChars
          by_cases hn : n < 0
          · rw [if_pos hn]
            exact ⟨'-', _, rfl, Or.inl rfl⟩
          · rw [if_neg hn]
            cases hd : natDigits n.toNat with
            | nil => exact absurd hd (natDigits_ne_nil _)
            | cons c cs =>
              exact ⟨c, cs, rfl, Or.inr (natDigits_all_dig _ c
                (by rw [hd]; exact List.mem_cons_self c cs))⟩
        obtain ⟨c, cs', heq, hcd⟩ := hhead
        have hplain : ∀ x : Char, isDigCh x = false → x ≠ '-' → c ≠ x := by
          intro x hx hxm
          rcases hcd with rfl | h
          · exact fun he => hxm he.symm
          · exact ne_of_digit h hx
        have hws : wsJ c = false := by
          rcases hcd with rfl | h
          · decide
          · exact digit_not_ws h
        have hnum : (decide (c = '-') || isDigCh c) = true := by
          rcases hcd with rfl | h
          · decide
          · simp [h]
        show parseVal (f + 1) (intChars n ++ rest) = some (Json.num n, rest)
        rw [heq, List.cons_append]
        simp only [parseVal, skipJ_cons_of c hws, hnum,
          hplain '\x7b' (by decide) (by decide), hplain '[' (by decide) (by decide),
          hplain '"' (by decide) (by decide), hplain 't' (by decide) (by decide),
          hplain 'f' (by decide) (by decide), hplain 'n' (by decide) (by decide),
          if_false, ite_false, Bool.or_true, if_true]
        rw [← List.cons_append, ← heq]
        exact parseNumFrom_render n rest hrest'
      | str s =>
        have hall : ∀ x ∈ s.data, 32 ≤ x.toNat := by
          simpa [noCtrlV, noCtrlStr] using hc
        simp only [renderChars, renderStrLit, List.cons_append, List.append_assoc,
          List.singleton_append]
        simp [parseVal, skipJ_cons_of '"' (by decide),
          parseStrBody_render s.data rest hall]
      | arr xs =>
        simp only [renderChars, List.cons_append, List.append_assoc, List.singleton_append,
          List.nil_append]
        simp only [parseVal, skipJ_cons_of '[' (by decide),
          eq_false (by decide : ¬('[' : Char) = '\x7b'),
          eq_true (show ('[' : Char) = '[' from rfl), if_false, if_true]
        cases xs with
        | nil =>
          rw [show renderItems .nil = [] from rfl, List.nil_append,
            skipJ_cons_of ']' (by decide)]
          simp
        | cons h t =>
          obtain ⟨c, cs', heqh, hws, hne1, hne2⟩ := renderChars_head h
          have hri : ∃ Y, renderItems (.cons h t) = renderChars h ++ Y := by
            cases t with
            | nil => exact ⟨[], by simp [renderItems]⟩
            | cons h2 t2 => exact ⟨_, rfl⟩
          obtain ⟨Y, hY⟩ := hri
          rw [hY, List.append_assoc, heqh, List.cons_append, skipJ_cons_of c hws]
          split
          · next r heqm =>
            rw [List.cons.injEq] at heqm
            exact absurd heqm.1 hne1
          · rw [← List.cons_append, ← heqh, ← List.append_assoc, ← hY]
            have hNs : sizeOf h + sizeOf t ≤ N - 1 ∧ N - 1 < N := by
              simp_arith at hN
              omega
            rw [(ih (N - 1) hNs.2).2.1 h t hNs.1 f
              (by simp only [jfuel] at hf; omega)
              (by simpa [noCtrlV] using hc) rest]
            rfl
      | obj ms =>
        simp only [renderChars, List.cons_append, List.append_assoc, List.singleton_append,
          List.nil_append]
        simp only [parseVal, skipJ_cons_of '\x7b' (by decide),
          eq_true (show ('\x7b' : Char) = '\x7b' from rfl), if_true]
        cases ms with
        | nil =>
          rw [show renderMembers .nil = [] from rfl, List.nil_append,
            skipJ_cons_of '\x7d' (by decide)]
          simp
        | cons k v t =>
          have hrm : ∃ Y, renderMembers (.cons k v t) = '"' :: (escBody k.data ++ ('"' :: Y)) := by
            cases t with
            | nil =>
              refine ⟨':' :: renderChars v, ?_⟩
              simp [renderMembers, renderStrLit, List.cons_append, List.append_assoc,
                List.singleton_append]
            | cons k2 v2 t2 =>
              refine ⟨':' :: (renderChars v ++ ',' :: renderMembers (.cons k2 v2 t2)), ?_⟩
              simp [renderMembers, renderStrLit, List.cons_append, List.append_assoc,
                List.singleton_append]
          obtain ⟨Y, hY⟩ := hrm
          rw [hY, List.cons_append, skipJ_cons_of '"' (by decide)]
          split
          · next r heqm =>
            rw [List.cons.injEq] at heqm
            exact absurd heqm.1 (by decide)
          · rw [← List.cons_append, ← hY]
            have hNs : sizeOf v + sizeOf t ≤ N - 1 ∧ N - 1 < N := by
              simp_arith at hN
              omega
            rw [(ih (N - 1) hNs.2).2.2 k v t hNs.1 f
              (by simp only [jfuel] at hf; omega)
              (by simpa [noCtrlV] using hc) rest]
            rfl
    · intro h t hN fuel hf hc rest
      obtain ⟨f, rfl⟩ : ∃ f, fuel = f + 1 := ⟨fuel - 1, by have := afuel_pos (.cons h t); omega⟩
      have hcv : noCtrlV h = true := by
        have h2 := hc
        simp only [noCtrlA, Bool.and_eq_true] at h2
        exact h2.1
      have hvN : sizeOf h ≤ N - 1 ∧ N - 1 < N := by
        have := jarr_sizeOf_pos t
        have := json_sizeOf_pos h
        omega
      cases t with
      | nil =>
        simp only [renderItems]
        simp only [parseItems,
          (ih (N - 1) hvN.2).1 h hvN.1 f (by simp only [afuel] at hf; omega) hcv
            (']' :: rest) (fun n _ => rfl),
          skipJ_cons_of ']' (by decide)]
      | cons h2 t2 =>
        simp only [renderItems, List.append_assoc, List.cons_append]
        simp only [parseItems,
          (ih (N - 1) hvN.2).1 h hvN.1 f (by simp only [afuel, jfuel] at hf ⊢; omega) hcv
            (',' :: (renderItems (.cons h2 t2) ++ ']' :: rest)) (fun n _ => rfl),
          skipJ_cons_of ',' (by decide)]
        have hN2 : sizeOf h2 + sizeOf t2 ≤ N - 1 := by
          have := json_sizeOf_pos h
          simp_arith at hN
          omega
        rw [(ih (N - 1) hvN.2).2.1 h2 t2 hN2 f (by simp only [afuel] at hf ⊢; omega)
          (by have h2' := hc; simp only [noCtrlA, Bool.and_eq_true] at h2' ⊢; exact h2'.2) rest]
        rfl
    · intro k v t hN fuel hf hc rest
      obtain ⟨f, rfl⟩ : ∃ f, fuel = f + 1 := ⟨fuel - 1, by have := ofuel_pos (.cons k v t); omega⟩
      have hck : ∀ x ∈ k.data, 32 ≤ x.toNat := by
        have h2 := hc
        simp only [noCtrlO, Bool.and_eq_true] at h2
        simpa [noCtrlStr] using h2.1.1
      have hcv : noCtrlV v = true := by
        have h2 := hc
        simp only [noCtrlO, Bool.and_eq_true] at h2
        exact h2.1.2
      have hvN : sizeOf v ≤ N - 1 ∧ N - 1 < N := by
        have := jobj_sizeOf_pos t
        have := json_sizeOf_pos v
        omega
      cases t with
      | nil =>
        simp only [renderMembers, renderStrLit, List.cons_append, List.append_assoc,
          List.singleton_append, List.nil_append]
        simp only [parseMembers, skipJ_cons_of '"' (by decide)]
        rw [parseStrBody_render k.data _ hck]
        simp only [skipJ_cons_of ':' (by decide)]
        rw [(ih (N - 1) hvN.2).1 v hvN.1 f (by simp only [ofuel] at hf; omega) hcv
          ('\x7d' :: rest) (fun n _ => rfl)]
        simp only [skipJ_cons_of '\x7d' (by decide)]
      | cons k2 v2 t2 =>
        simp only [renderMembers, renderStrLit, List.cons_append, List.append_assoc,
          List.singleton_append, List.nil_append]
        simp only [parseMembers, skipJ_cons_of '"' (by decide)]
        rw [parseStrBody_render k.data _ hck]
        simp only [skipJ_cons_of ':' (by decide)]
        rw [(ih (N - 1) hvN.2).1 v hvN.1 f (by simp only [ofuel] at hf; omega) hcv
          (',' :: (renderMembers (.cons k2 v2 t2) ++ '\x7d' :: rest)) (fun n _ => rfl)]
        simp only [skipJ_cons_of ',' (by decide)]
        have hN2 : sizeOf v2 + sizeOf t2 ≤ N - 1 := by
          have := json_sizeOf_pos v
          simp_arith at hN
          omega
        rw [(ih (N - 1) hvN.2).2.2 k2 v2 t2 hN2 f (by simp only [ofuel] at hf ⊢; omega)
          (by have h2' := hc; simp only [noCtrlO, Bool.and_eq_true] at h2' ⊢;
              exact ⟨h2'.2.1, h2'.2.2⟩) rest]
        simp

/-- Parsing the rendering of a value returns the value (wrapper around
`render_roundtrip_all`). -/
theorem parseVal_render (j : Json) (fuel : Nat) (hf : jfuel j ≤ fuel)
    (hc : noCtrlV j = true) (rest : List Char)
    (hrest : ∀ n, j = Json.num n → isDigCh (rest.headD ' ') = false) :
    parseVal fuel (renderChars j ++ rest) = some (j, rest) :=
  (render_roundtrip_all (sizeOf j)).1 j le_rfl fuel hf hc rest hrest

mutual

/-- The fuel bound of a value is covered by twice its rendered length. -/
theorem jfuel_le (j : Json) : jfuel j ≤ 2 * (renderChars j).length := by
  cases j with
  | null => simp [jfuel, renderChars]
  | bool b => cases b <;> simp [jfuel, renderChars]
  | num n =>
    obtain ⟨c, cs', heq, -, -, -⟩ := renderChars_head (.num n)
    simp [jfuel, heq]
    omega
  | str s =>
    simp [jfuel, renderChars, renderStrLit]
    omega
  | arr xs =>
    have := afuel_le xs
    simp only [jfuel, renderChars, List.length_cons, List.length_append,
      List.length_singleton]
    omega
  | obj ms =>
    have := ofuel_le ms
    simp only [jfuel, renderChars, List.length_cons, List.length_append,
      List.length_singleton]
    omega

/-- Fuel bound for array spines. -/
theorem afuel_le (xs : JArr) : afuel xs ≤ 2 * (renderItems xs).length + 3 := by
  cases xs with
  | nil => simp [afuel, renderItems]
  | cons h t =>
    have hj := jfuel_le h
    cases t with
    | nil =>
      simp only [afuel, renderItems]
      omega
    | cons h2 t2 =>
      have ht := afuel_le (.cons h2 t2)
      simp only [afuel, renderItems, List.length_append, List.length_cons]
      simp only [afuel] at ht
      omega

/-- Fuel bound for object spines. -/
theorem ofuel_le (ms : JObj) : ofuel ms ≤ 2 * (renderMembers ms).length + 3 := by
  cases ms with
  | nil => simp [ofuel, renderMembers]
  | cons k v t =>
    have hj := jfuel_le v
    cases t with
    | nil =>
      simp only [ofuel, renderMembers, List.length_append, List.length_cons]
      omega
    | cons k2 v2 t2 =>
      have ht := ofuel_le (.cons k2 v2 t2)
      simp only [ofuel, renderMembers, List.length_append, List.length_cons]
      simp only [ofuel] at ht
      omega

end

/-- `json.loads` on the canonical rendering of a control-free value
returns exactly the value. -/
theorem parse_render_eq (j : Json) (hc : noCtrlV j = true) :
    Json.parse (String.mk (renderChars j)) = some j := by
  unfold Json.parse
  have hlen : (String.mk (renderChars j)).length = (renderChars j).length := rfl
  have hfuel : jfuel j ≤ 2 * (String.mk (renderChars j)).length + 2 := by
    have := jfuel_le j
    omega
  have hpv := parseVal_render j (2 * (String.mk (renderChars j)).length + 2) hfuel hc []
    (fun n _ => rfl)
  rw [List.append_nil] at hpv
  rw [show (String.mk (renderChars j)).data = renderChars j from rfl, hpv]
  simp [skipJ]

/-! ## Locating the quoted key: `findSub` and `leadsWith` facts -/

/-- A pattern leads any extension of itself. -/
theorem leadsWith_append_self (pat X : List Char) : leadsWith pat (pat ++ X) = true := by
  induction pat with
  | nil => rfl
  | cons p ps ih => simp [leadsWith, ih]

/-- A leading pattern is no longer than the text. -/
theorem leadsWith_length : ∀ (pat s : List Char), leadsWith pat s = true →
    pat.length ≤ s.length := by
  intro pat
  induction pat with
  | nil => intro s _; simp
  | cons p ps ih =>
    intro s h
    cases s with
    | nil => simp [leadsWith] at h
    | cons c cs =>
      simp only [leadsWith, Bool.and_eq_true] at h
      have := ih cs h.2
      simp only [List.length_cons]
      omega

/-- Dropping the same amount from pattern and text preserves leading. -/
theorem leadsWith_drop : ∀ (m : Nat) (pat s : List Char), leadsWith pat s = true →
    leadsWith (pat.drop m) (s.drop m) = true := by
  intro m
  induction m with
  | zero => intro pat s h; simpa using h
  | succ m ih =>
    intro pat s h
    cases pat with
    | nil => simp [leadsWith]
    | cons p ps =>
      cases s with
      | nil => simp [leadsWith] at h
      | cons c cs =>
        simp only [leadsWith, Bool.and_eq_true] at h
        simpa using ih ps cs h.2

/-- A pattern that leads `a ++ b` within `a`'s length leads `a`. -/
theorem leadsWith_of_append : ∀ (pat a b : List Char),
    leadsWith pat (a ++ b) = true → pat.length ≤ a.length → leadsWith pat a = true := by
  intro pat
  induction pat with
  | nil => intro a b _ _; rfl
  | cons p ps ih =>
    intro a b h hl
    cases a with
    | nil => simp at hl
    | cons c cs =>
      simp only [List.cons_append, leadsWith, Bool.and_eq_true] at h ⊢
      exact ⟨h.1, ih cs b h.2 (by simpa using hl)⟩

/-- Characterisation of `findSubFrom`: the first index where the pattern
leads. -/
theorem findSubFrom_spec (pat : List Char) : ∀ (k : Nat) (s : List Char) (i : Nat),
    (∀ i' < k, leadsWith pat (s.drop i') = false) →
    leadsWith pat (s.drop k) = true →
    findSubFrom pat s i = some (i + k) := by
  intro k
  induction k with
  | zero =>
    intro s i _ hk
    cases s with
    | nil => simp only [List.drop_nil] at hk; simp [findSubFrom, hk]
    | cons c t => simp only [List.drop_zero] at hk; simp [findSubFrom, hk]
  | succ k ihk =>
    intro s i hlt hk
    cases s with
    | nil =>
      have h0 := hlt 0 (by omega)
      simp only [List.drop_nil] at h0 hk
      rw [h0] at hk
      cases hk
    | cons c t =>
      have h0 := hlt 0 (by omega)
      simp only [List.drop_zero] at h0
      rw [findSubFrom, if_neg (by simp [h0])]
      rw [ihk t (i + 1)
        (fun i' hi' => by simpa using hlt (i' + 1) (by omega))
        (by simpa using hk)]
      congr 1
      omega

/-- Characterisation of `findSub`. -/
theorem findSub_spec (pat s : List Char) (k : Nat)
    (hlt : ∀ i' < k, leadsWith pat (s.drop i') = false)
    (hk : leadsWith pat (s.drop k) = true) : findSub pat s = some k := by
  have := findSubFrom_spec pat k s 0 hlt hk
  simpa [findSub] using this

/-- Without an opening fence the fenced pass finds nothing. -/
theorem fencedGo_none (fuel : Nat) (cs : List Char) (key : String)
    (h : findSub fenceOpen cs = none) : fencedGo fuel cs key = none := by
  cases fuel with
  | zero => rfl
  | succ f => simp [fencedGo, h]

/-- Escaping is the identity on strings without quotes or backslashes. -/
theorem escBody_plain : ∀ (cs : List Char), (∀ c ∈ cs, ¬(c = '"' ∨ c = '\\')) →
    escBody cs = cs := by
  intro cs
  induction cs with
  | nil => intro _; rfl
  | cons c cst ih =>
    intro h
    rw [escBody, if_neg (h c (List.mem_cons_self c cst)),
      ih (fun x hx => h x (List.mem_cons_of_mem c hx))]

/-- `getD` at the junction of an append reads the second list's head. -/
theorem getD_append_len : ∀ (a b : List Char) (d : Char),
    (a ++ b).getD a.length d = b.getD 0 d := by
  intro a
  induction a with
  | nil => intro b d; rfl
  | cons x a ih => intro b d; simpa using ih b d

/-- Dropping within the first part of an append. -/
theorem drop_append_le (a b : List Char) (n : Nat) (h : n ≤ a.length) :
    (a ++ b).drop n = a.drop n ++ b := by
  induction a generalizing n with
  | nil =>
    simp only [List.length_nil, Nat.le_zero] at h
    simp [h]
  | cons x a ih =>
    cases n with
    | zero => simp
    | succ n => simpa using ih n (by simpa using h)

/-- Two drops compose into one. -/
theorem drop_drop_ch (l : List Char) (n m : Nat) :
    (l.drop n).drop m = l.drop (n + m) := by
  induction n generalizing l with
  | zero => simp
  | succ n ih =>
    cases l with
    | nil => simp
    | cons c cs =>
      have hidx : n + 1 + m = (n + m) + 1 := by omega
      rw [hidx]
      exact ih cs

/-- The backward brace scan stops one step to the left when the brace sits
right there. -/
theorem backBrace_succ_of (cs : List Char) (p : Nat)
    (h1 : ¬cs.getD (p + 1) ' ' = '\x7b') (h0 : cs.getD p ' ' = '\x7b') :
    backBrace cs (p + 1) = p := by
  rw [backBrace, if_neg h1]
  cases p with
  | zero => rfl
  | succ q => rw [backBrace, h0, if_pos rfl]

/-- Claim C1 (counterexample to the original statement): the object
with key "a" mapping to a nested object followed by the marker key is
well-formed JSON carrying "markerKey" as a top-level key, the
surrounding prose is empty (so it carries no other occurrence of the
quoted marker key and no fenced json block), yet the Locator returns
nothing: the backward scan stops at the nested opening brace, the
forward scan closes the inner object, and the membership check rejects
it without any retry. -/
theorem c1_cex :
    find_json_containing "\x7b\"a\":\x7b\"b\":1\x7d,\"markerKey\":2\x7d"
      "markerKey" = none := by
  decide

/-- Claim C1 (amended): for a marker key of ordinary characters, a JSON
object that carries the marker key as its first top-level key and whose
strings are control-free, and surrounding prose with no occurrence of
the quoted marker key and no fenced json block, the Locator applied to
prose-object-prose returns exactly the rendered object, and that result
parses back to an object equal to the original. -/
theorem c1_amended_extraction (key : String) (v : Json) (t : JObj)
    (p1 p2 : List Char) (content : String)
    (hcontent : content.data =
      p1 ++ (renderChars (Json.obj (JObj.cons key v t)) ++ p2))
    (hkey : plainKey key = true)
    (hctrl : noCtrlV (Json.obj (JObj.cons key v t)) = true)
    (hp1 : ∀ i < p1.length,
      leadsWith ('"' :: (key.data ++ ['"'])) (p1.drop i) = false)
    (hfence : hasSubstr fenceOpen content.data = false) :
    find_json_containing content key =
      some (String.mk (renderChars (Json.obj (JObj.cons key v t)))) ∧
    Json.parse (String.mk (renderChars (Json.obj (JObj.cons key v t)))) =
      some (Json.obj (JObj.cons key v t)) := by
  have hkk := hkey
  simp only [plainKey, List.all_eq_true, Bool.and_eq_true, decide_eq_true_eq] at hkk
  have hesc : escBody key.data = key.data :=
    escBody_plain key.data (fun c hc hor => by
      rcases hkk c hc with ⟨⟨⟨h1, h2⟩, _⟩, _⟩
      rcases hor with h | h
      exacts [h1 h, h2 h])
  have hWex : ∃ W, renderChars (Json.obj (JObj.cons key v t)) =
      '\x7b' :: (('"' :: (key.data ++ ['"'])) ++ W) := by
    cases t with
    | nil =>
      exact ⟨':' :: renderChars v ++ ['\x7d'], by
        simp [renderChars, renderMembers, renderStrLit, hesc, List.append_assoc]⟩
    | cons k2 v2 t2 =>
      exact ⟨':' :: (renderChars v ++ ',' :: renderMembers (JObj.cons k2 v2 t2)) ++
          ['\x7d'], by
        simp [renderChars, renderMembers, renderStrLit, hesc, List.append_assoc]⟩
  obtain ⟨W, hW⟩ := hWex
  have hsplit : content.data =
      (p1 ++ ['\x7b']) ++ (('"' :: (key.data ++ ['"'])) ++ (W ++ p2)) := by
    rw [hcontent, hW]
    simp [List.append_assoc, List.cons_append, List.singleton_append]
  have hdropA : content.data.drop p1.length =
      renderChars (Json.obj (JObj.cons key v t)) ++ p2 := by
    rw [hcontent]
    exact List.drop_left _ _
  have hdropAmid : content.data.drop p1.length =
      '\x7b' :: (('"' :: (key.data ++ ['"'])) ++ (W ++ p2)) := by
    rw [hdropA, hW]
    simp [List.append_assoc, List.cons_append]
  have hdropA1 : content.data.drop (p1.length + 1) =
      ('"' :: (key.data ++ ['"'])) ++ (W ++ p2) := by
    rw [hsplit, show p1.length + 1 = (p1 ++ ['\x7b']).length by simp]
    exact List.drop_left _ _
  have hbrace_not_in_qk : ∀ c ∈ ('"' :: (key.data ++ ['"'])), c ≠ '\x7b' := by
    intro c hc
    rcases List.mem_cons.mp hc with rfl | hc2
    · decide
    rcases List.mem_append.mp hc2 with hc3 | hc3
    · exact (hkk c hc3).1.2
    · have hce := List.mem_singleton.mp hc3
      subst hce
      decide
  have hnoEarly : ∀ i' < p1.length + 1,
      leadsWith ('"' :: (key.data ++ ['"'])) (content.data.drop i') = false := by
    intro i' hi'
    by_cases hcase : i' = p1.length
    · subst hcase
      rw [hdropAmid]
      simp [leadsWith]
    · have hi2 : i' < p1.length := by omega
      cases hb : leadsWith ('"' :: (key.data ++ ['"'])) (content.data.drop i') with
      | false => rfl
      | true =>
        exfalso
        by_cases hin : i' + (key.data.length + 2) ≤ p1.length
        · have hdr : content.data.drop i' =
              p1.drop i' ++ (renderChars (Json.obj (JObj.cons key v t)) ++ p2) := by
            rw [hcontent]
            exact drop_append_le _ _ _ (by omega)
          rw [hdr] at hb
          have hlead := leadsWith_of_append _ _ _ hb (by
            simp only [List.length_cons, List.length_append, List.length_drop,
              List.length_nil]
            omega)
          rw [hp1 i' hi2] at hlead
          exact Bool.noConfusion hlead
        · have hd := leadsWith_drop (p1.length - i') _ _ hb
          rw [drop_drop_ch] at hd
          rw [show i' + (p1.length - i') = p1.length from by omega] at hd
          rw [hdropAmid] at hd
          cases hq : ('"' :: (key.data ++ ['"'])).drop (p1.length - i') with
          | nil =>
            have hlq := congrArg List.length hq
            simp only [List.length_drop, List.length_cons, List.length_append,
              List.length_nil] at hlq
            omega
          | cons c cs' =>
            rw [hq] at hd
            simp only [leadsWith, Bool.and_eq_true, decide_eq_true_eq] at hd
            have hcmem : c ∈ ('"' :: (key.data ++ ['"'])) :=
              List.drop_subset _ _ (by rw [hq]; exact List.mem_cons_self c cs')
            exact hbrace_not_in_qk c hcmem hd.1
  have hfind : findSub ('"' :: (key.data ++ ['"'])) content.data =
      some (p1.length + 1) :=
    findSub_spec _ _ _ hnoEarly (by rw [hdropA1]; exact leadsWith_append_self _ _)
  have hg0 : content.data.getD p1.length ' ' = '\x7b' := by
    rw [hcontent, getD_append_len, hW]
    rfl
  have hg1 : content.data.getD (p1.length + 1) ' ' = '"' := by
    rw [hsplit, show p1.length + 1 = (p1 ++ ['\x7b']).length by simp, getD_append_len]
    rfl
  have hback : backBrace content.data (p1.length + 1) = p1.length :=
    backBrace_succ_of _ _ (by rw [hg1]; decide) hg0
  have hslice : (content.data.take (p1.length +
      (renderChars (Json.obj (JObj.cons key v t))).length)).drop p1.length =
      renderChars (Json.obj (JObj.cons key v t)) := by
    rw [hcontent, ← List.append_assoc,
      show p1.length + (renderChars (Json.obj (JObj.cons key v t))).length =
        (p1 ++ renderChars (Json.obj (JObj.cons key v t))).length by simp,
      List.take_left, List.drop_left]
  have hparse : Json.parse (String.mk (renderChars (Json.obj (JObj.cons key v t)))) =
      some (Json.obj (JObj.cons key v t)) := parse_render_eq _ hctrl
  have hpy : pyIn key (Json.obj (JObj.cons key v t)) = some true := by
    simp [pyIn, objHasKey]
  have hfs : findSub fenceOpen content.data = none := by
    cases hx : findSub fenceOpen content.data with
    | none => rfl
    | some p =>
      rw [hasSubstr, hx] at hfence
      simp at hfence
  have hfg : fencedGo (content.data.length + 1) content.data key = none :=
    fencedGo_none _ _ _ hfs
  refine ⟨?_, hparse⟩
  simp only [find_json_containing, hfg]
  simp only [bracketPass, hfind, hback]
  rw [if_pos hg0]
  simp only [hdropA, scanB_top, hslice, hparse, hpy]

/-- Witness for the amended C1 at a concrete instance: prose, an object
with first key "markerKey", more prose. -/
theorem c1_witness :
    find_json_containing
        (String.mk ("Some prose ".data ++
          (renderChars (Json.obj (JObj.cons "markerKey" (Json.num 2) JObj.nil)) ++
            " more prose".data))) "markerKey" =
      some (String.mk
        (renderChars (Json.obj (JObj.cons "markerKey" (Json.num 2) JObj.nil)))) ∧
    Json.parse (String.mk
        (renderChars (Json.obj (JObj.cons "markerKey" (Json.num 2) JObj.nil)))) =
      some (Json.obj (JObj.cons "markerKey" (Json.num 2) JObj.nil)) :=
  c1_amended_extraction "markerKey" (Json.num 2) JObj.nil "Some prose ".data
    " more prose".data _ rfl (by decide) (by decide) (by decide) (by decide)

/-! ## Case invariance of the detection patterns (C10) -/

/-- Lowercasing does not change whitespace status. -/
theorem wsCh_lowCh (c : Char) : isWsCh (lowCh c) = isWsCh c := by
  rw [lowCh.eq_def]
  split
  all_goals rfl

/-- Lowercasing does not change digit status. -/
theorem digCh_lowCh (c : Char) : isDigCh (lowCh c) = isDigCh c := by
  rw [lowCh.eq_def]
  split
  all_goals rfl

/-- Lowercasing does not change letter status. -/
theorem alphaCh_lowCh (c : Char) : isAlphaCh (lowCh c) = isAlphaCh c := by
  rw [lowCh.eq_def]
  split
  all_goals rfl

/-- Lowercasing fixes the closing parenthesis test. -/
theorem rparen_lowCh (c : Char) : lowCh c = ')' ↔ c = ')' := by
  rw [lowCh.eq_def]
  split
  all_goals first | exact Iff.rfl | decide

/-- Lowercasing fixes the apostrophe test. -/
theorem apos_lowCh (c : Char) : lowCh c = Char.ofNat 39 ↔ c = Char.ofNat 39 := by
  rw [lowCh.eq_def]
  split
  all_goals first | exact Iff.rfl | decide

/-- Characters equal up to case have equal whitespace status. -/
theorem wsCh_rel (a b : Char) (h : lowCh a = lowCh b) : isWsCh a = isWsCh b := by
  rw [← wsCh_lowCh a, h, wsCh_lowCh b]

/-- Characters equal up to case have equal digit status. -/
theorem digCh_rel (a b : Char) (h : lowCh a = lowCh b) : isDigCh a = isDigCh b := by
  rw [← digCh_lowCh a, h, digCh_lowCh b]

/-- Characters equal up to case have equal letter status. -/
theorem alphaCh_rel (a b : Char) (h : lowCh a = lowCh b) : isAlphaCh a = isAlphaCh b := by
  rw [← alphaCh_lowCh a, h, alphaCh_lowCh b]

/-- Characters equal up to case agree on being a closing parenthesis. -/
theorem rparen_rel (a b : Char) (h : lowCh a = lowCh b) : a = ')' ↔ b = ')' := by
  rw [← rparen_lowCh a, h, rparen_lowCh b]

/-- Characters equal up to case agree on being an apostrophe. -/
theorem apos_rel (a b : Char) (h : lowCh a = lowCh b) :
    a = Char.ofNat 39 ↔ b = Char.ofNat 39 := by
  rw [← apos_lowCh a, h, apos_lowCh b]

/-- Case-equal lists have equal length. -/
theorem lowEqL_length (s t : List Char) (h : lowEqL s t) : s.length = t.length := by
  have hl := congrArg List.length h
  simpa using hl

/-- Append respects case equality. -/
theorem lowEqL_append (s1 t1 s2 t2 : List Char) (h1 : lowEqL s1 t1)
    (h2 : lowEqL s2 t2) : lowEqL (s1 ++ s2) (t1 ++ t2) := by
  simp only [lowEqL, List.map_append]
  rw [h1, h2]

/-- Reversal respects case equality. -/
theorem lowEqL_reverse (s t : List Char) (h : lowEqL s t) :
    lowEqL s.reverse t.reverse := by
  simp only [lowEqL, List.map_reverse]
  rw [h]

/-- Cons respects case equality. -/
theorem lowEqL_cons (a b : Char) (s t : List Char) (hab : lowCh a = lowCh b)
    (h : lowEqL s t) : lowEqL (a :: s) (b :: t) := by
  simp only [lowEqL, List.map_cons]
  rw [hab, h]

/-- Inversion of case equality: both lists are empty, or both start with
case-equal heads and have case-equal tails. -/
theorem lowEqL_destruct (s t : List Char) (h : lowEqL s t) :
    (s = [] ∧ t = []) ∨
      ∃ a as b bs, s = a :: as ∧ t = b :: bs ∧ lowCh a = lowCh b ∧ lowEqL as bs := by
  cases s with
  | nil =>
    cases t with
    | nil => exact Or.inl ⟨rfl, rfl⟩
    | cons b bs => simp [lowEqL] at h
  | cons a as =>
    cases t with
    | nil => simp [lowEqL] at h
    | cons b bs =>
      simp only [lowEqL, List.map_cons, List.cons.injEq] at h
      exact Or.inr ⟨a, as, b, bs, rfl, rfl, h.1, h.2⟩

/-- orElse preserves relatedness of optional results. -/
theorem orElse_rel {r : α → α → Prop} {o1 o2 o1x o2x : Option α}
    (h1 : optRel r o1 o2) (h2 : optRel r o1x o2x) :
    optRel r (o1 <|> o1x) (o2 <|> o2x) := by
  cases o1 with
  | none =>
    cases o2 with
    | none => exact h2
    | some b => exact h1.elim
  | some a =>
    cases o2 with
    | none => exact h1.elim
    | some b => exact h1

/-- bind preserves relatedness of optional results. -/
theorem bind_rel {r1 : α → α → Prop} {r2 : β → β → Prop} {o1 o2 : Option α}
    {f g : α → Option β} (ho : optRel r1 o1 o2)
    (hf : ∀ a b, r1 a b → optRel r2 (f a) (g b)) :
    optRel r2 (o1 >>= f) (o2 >>= g) := by
  cases o1 with
  | none =>
    cases o2 with
    | none => trivial
    | some b => exact ho.elim
  | some a =>
    cases o2 with
    | none => exact ho.elim
    | some b => exact hf a b ho

/-- Related optional results are simultaneously present. -/
theorem optRel_isSome {r : α → α → Prop} (o1 o2 : Option α) (h : optRel r o1 o2) :
    o1.isSome = o2.isSome := by
  cases o1 with
  | none =>
    cases o2 with
    | none => rfl
    | some b => exact h.elim
  | some a =>
    cases o2 with
    | none => exact h.elim
    | some b => rfl

/-- Backtracking over related candidate lists with related continuations
yields related results. -/
theorem firstSome_rel {r1 : α → α → Prop} {r2 : β → β → Prop} :
    ∀ (l1 l2 : List α) (k1 k2 : α → Option β), listRel r1 l1 l2 →
      (∀ a b, r1 a b → optRel r2 (k1 a) (k2 b)) →
      optRel r2 (firstSome l1 k1) (firstSome l2 k2) := by
  intro l1
  induction l1 with
  | nil =>
    intro l2 k1 k2 hl hk
    cases l2 with
    | nil => trivial
    | cons b bs => exact hl.elim
  | cons a as ih =>
    intro l2 k1 k2 hl hk
    cases l2 with
    | nil => exact hl.elim
    | cons b bs => exact orElse_rel (hk a b hl.1) (ih bs k1 k2 hl.2 hk)

/-- dropWhile with a case-invariant predicate respects case equality. -/
theorem dropWhile_rel (p : Char → Bool)
    (hp : ∀ a b, lowCh a = lowCh b → p a = p b) :
    ∀ s t, lowEqL s t → lowEqL (s.dropWhile p) (t.dropWhile p) := by
  intro s
  induction s with
  | nil =>
    intro t h
    rcases lowEqL_destruct _ _ h with ⟨_, rfl⟩ | ⟨a, as, b, bs, he, _, _, _⟩
    · exact h
    · exact List.noConfusion he
  | cons a as ih =>
    intro t h
    rcases lowEqL_destruct _ _ h with ⟨he, _⟩ | ⟨a', as', b, bs, he1, he2, hab, hrest⟩
    · exact List.noConfusion he
    · injection he1 with k1 k2
      subst k1
      subst k2
      subst he2
      rw [List.dropWhile_cons, List.dropWhile_cons, hp a b hab]
      by_cases hb : p b = true
      · rw [if_pos hb, if_pos hb]
        exact ih bs hrest
      · rw [if_neg hb, if_neg hb]
        exact lowEqL_cons a b as bs hab hrest

/-- takeWhile with a case-invariant predicate respects case equality. -/
theorem takeWhile_rel (p : Char → Bool)
    (hp : ∀ a b, lowCh a = lowCh b → p a = p b) :
    ∀ s t, lowEqL s t → lowEqL (s.takeWhile p) (t.takeWhile p) := by
  intro s
  induction s with
  | nil =>
    intro t h
    rcases lowEqL_destruct _ _ h with ⟨_, rfl⟩ | ⟨a, as, b, bs, he, _, _, _⟩
    · exact h
    · exact List.noConfusion he
  | cons a as ih =>
    intro t h
    rcases lowEqL_destruct _ _ h with ⟨he, _⟩ | ⟨a', as', b, bs, he1, he2, hab, hrest⟩
    · exact List.noConfusion he
    · injection he1 with k1 k2
      subst k1
      subst k2
      subst he2
      rw [List.takeWhile_cons, List.takeWhile_cons, hp a b hab]
      by_cases hb : p b = true
      · rw [if_pos hb, if_pos hb]
        exact lowEqL_cons a b _ _ hab (ih bs hrest)
      · rw [if_neg hb, if_neg hb]
        rfl

/-- The stripped capture respects case equality. -/
theorem stripWs_rel (s t : List Char) (h : lowEqL s t) :
    lowEqL (stripWs s) (stripWs t) := by
  unfold stripWs
  exact lowEqL_reverse _ _ (dropWhile_rel isWsCh wsCh_rel _ _
    (lowEqL_reverse _ _ (dropWhile_rel isWsCh wsCh_rel _ _ h)))

/-- The case-insensitive literal matcher treats case-equal texts alike. -/
theorem matchLitCI_rel (p : List Char) :
    ∀ s t, lowEqL s t → optRel lowEqL (matchLitCI p s) (matchLitCI p t) := by
  induction p with
  | nil => intro s t h; exact h
  | cons pc ps ih =>
    intro s t h
    rcases lowEqL_destruct _ _ h with ⟨rfl, rfl⟩ | ⟨a, as, b, bs, rfl, rfl, hab, hrest⟩
    · trivial
    · rw [matchLitCI, matchLitCI, hab]
      by_cases hc : lowCh b = pc
      · rw [if_pos hc, if_pos hc]
        exact ih as bs hrest
      · rw [if_neg hc, if_neg hc]
        trivial

/-- The case-insensitive single-character matcher treats case-equal
texts alike. -/
theorem matchChCI_rel (p : Char) :
    ∀ s t, lowEqL s t → optRel lowEqL (matchChCI p s) (matchChCI p t) := by
  intro s t h
  rcases lowEqL_destruct _ _ h with ⟨rfl, rfl⟩ | ⟨a, as, b, bs, rfl, rfl, hab, hrest⟩
  · trivial
  · rw [matchChCI, matchChCI, hab]
    by_cases hc : lowCh b = p
    · rw [if_pos hc, if_pos hc]
      exact hrest
    · rw [if_neg hc, if_neg hc]
      trivial

/-- The mandatory-whitespace matcher treats case-equal texts alike. -/
theorem ws1_rel : ∀ s t, lowEqL s t → optRel lowEqL (ws1 s) (ws1 t) := by
  intro s t h
  rcases lowEqL_destruct _ _ h with ⟨rfl, rfl⟩ | ⟨a, as, b, bs, rfl, rfl, hab, hrest⟩
  · trivial
  · rw [ws1, ws1, wsCh_rel a b hab]
    by_cases hw : isWsCh b = true
    · rw [if_pos hw, if_pos hw]
      exact dropWhile_rel isWsCh wsCh_rel as bs hrest
    · rw [if_neg hw, if_neg hw]
      trivial

/-- The whitespace-run splitter treats case-equal texts alike. -/
theorem wsTake_rel (s t : List Char) (h : lowEqL s t) :
    prodRel lowEqL lowEqL (wsTake s) (wsTake t) :=
  ⟨takeWhile_rel isWsCh wsCh_rel s t h, dropWhile_rel isWsCh wsCh_rel s t h⟩

/-- The optional-s-plus-whitespace matcher treats case-equal texts
alike. -/
theorem sOptWs1_rel (s t : List Char) (h : lowEqL s t) :
    optRel lowEqL (sOptWs1 s) (sOptWs1 t) := by
  unfold sOptWs1
  refine orElse_rel ?_ (ws1_rel s t h)
  rcases lowEqL_destruct _ _ h with ⟨rfl, rfl⟩ | ⟨a, as, b, bs, rfl, rfl, hab, hrest⟩
  · trivial
  · dsimp only
    rw [hab]
    by_cases hc : lowCh b = 's'
    · rw [if_pos hc, if_pos hc]
      exact ws1_rel as bs hrest
    · rw [if_neg hc, if_neg hc]
      trivial

/-- The optional-comma-plus-whitespace matcher treats case-equal texts
alike. -/
theorem commaWs1_rel (s t : List Char) (h : lowEqL s t) :
    optRel lowEqL (commaWs1 s) (commaWs1 t) := by
  unfold commaWs1
  refine orElse_rel ?_ (ws1_rel s t h)
  rcases lowEqL_destruct _ _ h with ⟨rfl, rfl⟩ | ⟨a, as, b, bs, rfl, rfl, hab, hrest⟩
  · trivial
  · dsimp only
    rw [hab]
    by_cases hc : lowCh b = ','
    · rw [if_pos hc, if_pos hc]
      exact ws1_rel as bs hrest
    · rw [if_neg hc, if_neg hc]
      trivial

/-- The letter-run matcher treats case-equal texts alike. -/
theorem alpha1_rel (s t : List Char) (h : lowEqL s t) :
    optRel lowEqL (alpha1 s) (alpha1 t) := by
  rcases lowEqL_destruct _ _ h with ⟨rfl, rfl⟩ | ⟨a, as, b, bs, rfl, rfl, hab, hrest⟩
  · trivial
  · rw [alpha1, alpha1, alphaCh_rel a b hab]
    by_cases hw : isAlphaCh b = true
    · rw [if_pos hw, if_pos hw]
      exact dropWhile_rel isAlphaCh alphaCh_rel as bs hrest
    · rw [if_neg hw, if_neg hw]
      trivial

/-- The am/pm matcher treats case-equal texts alike and captures
case-equal slices. -/
theorem amPm_rel (s t : List Char) (h : lowEqL s t) :
    optRel (prodRel lowEqL lowEqL) (amPm s) (amPm t) := by
  rcases lowEqL_destruct _ _ h with ⟨rfl, rfl⟩ | ⟨a, as, b, bs, rfl, rfl, hab, hrest⟩
  · trivial
  rcases lowEqL_destruct _ _ hrest with ⟨rfl, rfl⟩ |
    ⟨a2, as2, b2, bs2, rfl, rfl, hab2, hrest2⟩
  · trivial
  rw [amPm, amPm, hab, hab2]
  by_cases hc : ((lowCh b = 'a' || lowCh b = 'p') && lowCh b2 = 'm') = true
  · rw [if_pos hc, if_pos hc]
    exact ⟨lowEqL_cons _ _ _ _ hab (lowEqL_cons _ _ _ _ hab2 rfl), hrest2⟩
  · rw [if_neg hc, if_neg hc]
    trivial

/-- The one-or-two-digit candidate lists of case-equal texts are
related candidate by candidate. -/
theorem dig12cands_rel (s t : List Char) (h : lowEqL s t) :
    listRel (prodRel lowEqL lowEqL) (dig12cands s) (dig12cands t) := by
  rcases lowEqL_destruct _ _ h with ⟨rfl, rfl⟩ | ⟨a, as, b, bs, rfl, rfl, hab, hrest⟩
  · trivial
  rcases lowEqL_destruct _ _ hrest with ⟨rfl, rfl⟩ |
    ⟨a2, as2, b2, bs2, rfl, rfl, hab2, hrest2⟩
  · rw [dig12cands, dig12cands, digCh_rel a b hab]
    by_cases hd : isDigCh b = true
    · rw [if_pos hd, if_pos hd]
      exact ⟨⟨lowEqL_cons _ _ _ _ hab rfl, rfl⟩, trivial⟩
    · rw [if_neg hd, if_neg hd]
      trivial
  rw [dig12cands, dig12cands, digCh_rel a b hab, digCh_rel a2 b2 hab2]
  by_cases hd : isDigCh b = true
  · rw [if_pos hd, if_pos hd]
    by_cases hd2 : isDigCh b2 = true
    · rw [if_pos hd2, if_pos hd2]
      refine ⟨⟨lowEqL_cons _ _ _ _ hab (lowEqL_cons _ _ _ _ hab2 rfl), hrest2⟩, ?_, trivial⟩
      exact ⟨lowEqL_cons _ _ _ _ hab rfl, lowEqL_cons _ _ _ _ hab2 hrest2⟩
    · rw [if_neg hd2, if_neg hd2]
      exact ⟨⟨lowEqL_cons _ _ _ _ hab rfl, lowEqL_cons _ _ _ _ hab2 hrest2⟩, trivial⟩
  · rw [if_neg hd, if_neg hd]
    trivial

/-- The two-digit matcher treats case-equal texts alike. -/
theorem dig2_rel (s t : List Char) (h : lowEqL s t) :
    optRel (prodRel lowEqL lowEqL) (dig2 s) (dig2 t) := by
  rcases lowEqL_destruct _ _ h with ⟨rfl, rfl⟩ | ⟨a, as, b, bs, rfl, rfl, hab, hrest⟩
  · trivial
  rcases lowEqL_destruct _ _ hrest with ⟨rfl, rfl⟩ |
    ⟨a2, as2, b2, bs2, rfl, rfl, hab2, hrest2⟩
  · trivial
  rw [dig2, dig2, digCh_rel a b hab, digCh_rel a2 b2 hab2]
  by_cases hd : (isDigCh b && isDigCh b2) = true
  · rw [if_pos hd, if_pos hd]
    exact ⟨lowEqL_cons _ _ _ _ hab (lowEqL_cons _ _ _ _ hab2 rfl), hrest2⟩
  · rw [if_neg hd, if_neg hd]
    trivial

/-- The four-digit matcher treats case-equal texts alike. -/
theorem dig4_rel (s t : List Char) (h : lowEqL s t) :
    optRel (prodRel lowEqL lowEqL) (dig4 s) (dig4 t) := by
  rcases lowEqL_destruct _ _ h with ⟨rfl, rfl⟩ | ⟨a, as, b, bs, rfl, rfl, hab, hrest⟩
  · trivial
  rcases lowEqL_destruct _ _ hrest with ⟨rfl, rfl⟩ |
    ⟨a2, as2, b2, bs2, rfl, rfl, hab2, hrest2⟩
  · trivial
  rcases lowEqL_destruct _ _ hrest2 with ⟨rfl, rfl⟩ |
    ⟨a3, as3, b3, bs3, rfl, rfl, hab3, hrest3⟩
  · trivial
  rcases lowEqL_destruct _ _ hrest3 with ⟨rfl, rfl⟩ |
    ⟨a4, as4, b4, bs4, rfl, rfl, hab4, hrest4⟩
  · trivial
  rw [dig4, dig4, digCh_rel a b hab, digCh_rel a2 b2 hab2, digCh_rel a3 b3 hab3,
    digCh_rel a4 b4 hab4]
  by_cases hd : (isDigCh b && isDigCh b2 && isDigCh b3 && isDigCh b4) = true
  · rw [if_pos hd, if_pos hd]
    exact ⟨lowEqL_cons _ _ _ _ hab (lowEqL_cons _ _ _ _ hab2
      (lowEqL_cons _ _ _ _ hab3 (lowEqL_cons _ _ _ _ hab4 rfl))), hrest4⟩
  · rw [if_neg hd, if_neg hd]
    trivial

/-- The head a dropWhile run stops at falsifies the predicate. -/
theorem dropWhile_head_false (p : Char → Bool) :
    ∀ (l : List Char) c r, l.dropWhile p = c :: r → p c = false := by
  intro l
  induction l with
  | nil =>
    intro c r hh
    exact List.noConfusion hh
  | cons x xs ih =>
    intro c r hh
    rw [List.dropWhile_cons] at hh
    by_cases hx : p x = true
    · rw [if_pos hx] at hh
      exact ih c r hh
    · rw [if_neg hx] at hh
      injection hh with h1 h2
      subst h1
      simp at hx
      exact hx

/-- Lists of equal length are simultaneously empty. -/
theorem isEmpty_eq_of_length {l1 l2 : List Char} (h : l1.length = l2.length) :
    l1.isEmpty = l2.isEmpty := by
  cases l1 <;> cases l2 <;> simp_all

/-- The zone capture when the text holds no closing parenthesis. -/
theorem zoneCap_nil (s : List Char)
    (h : s.dropWhile (fun c => decide (c ≠ ')')) = []) : zoneCap s = none := by
  simp only [zoneCap]
  rw [h]

/-- The zone capture when the scan reaches a closing parenthesis. -/
theorem zoneCap_closed (s r : List Char)
    (h : s.dropWhile (fun c => decide (c ≠ ')')) = ')' :: r) :
    zoneCap s =
      if (s.takeWhile (fun c => decide (c ≠ ')'))).isEmpty then none
      else some (s.takeWhile (fun c => decide (c ≠ ')')), r) := by
  simp only [zoneCap]
  rw [h]
  split
  · rename_i r2 heq
    injection heq with h1 h2
    subst h2
    rfl
  · rename_i hne
    exact absurd rfl (hne r)

/-- The zone capture treats case-equal texts alike and captures
case-equal groups. -/
theorem zoneCap_rel (s t : List Char) (h : lowEqL s t) :
    optRel (prodRel lowEqL lowEqL) (zoneCap s) (zoneCap t) := by
  have hpred : ∀ a b : Char, lowCh a = lowCh b →
      (decide (a ≠ ')')) = (decide (b ≠ ')')) := fun a b hab =>
    decide_eq_decide.mpr (not_congr (rparen_rel a b hab))
  have htw := takeWhile_rel _ hpred s t h
  have hdw := dropWhile_rel _ hpred s t h
  rcases lowEqL_destruct _ _ hdw with ⟨he1, he2⟩ | ⟨c, r, c', r', he1, he2, hcc, hrr⟩
  · rw [zoneCap_nil _ he1, zoneCap_nil _ he2]
    trivial
  · have hcp := dropWhile_head_false _ _ _ _ he1
    have hcp' := dropWhile_head_false _ _ _ _ he2
    simp only [decide_eq_false_iff_not, not_not] at hcp hcp'
    subst hcp
    subst hcp'
    rw [zoneCap_closed _ _ he1, zoneCap_closed _ _ he2,
      isEmpty_eq_of_length (lowEqL_length _ _ htw)]
    by_cases hie : (t.takeWhile fun c => decide (c ≠ ')')).isEmpty = true
    · rw [if_pos hie, if_pos hie]
      trivial
    · rw [if_neg hie, if_neg hie]
      exact ⟨htw, hrr⟩

/-- The trailing zone-group matcher treats case-equal texts alike. -/
theorem afterTimeZone_rel (s t : List Char) (h : lowEqL s t) :
    optRel lowEqL (afterTimeZone s) (afterTimeZone t) := by
  unfold afterTimeZone
  refine bind_rel (matchChCI_rel '(' _ _ (dropWhile_rel isWsCh wsCh_rel s t h)) ?_
  intro a b hab
  refine bind_rel (zoneCap_rel a b hab) ?_
  intro p q hpq
  obtain ⟨p1, p2⟩ := p
  obtain ⟨q1, q2⟩ := q
  exact hpq.1

/-- Pattern 1 treats case-equal texts alike and captures case-equal
groups. -/
theorem p1At_rel (s t : List Char) (h : lowEqL s t) :
    optRel (prodRel lowEqL lowEqL) (p1At s) (p1At t) := by
  unfold p1At
  refine bind_rel (matchLitCI_rel _ _ _ h) fun a b hab => ?_
  refine bind_rel (sOptWs1_rel _ _ hab) fun a2 b2 hab2 => ?_
  refine firstSome_rel _ _ _ _ (dig12cands_rel _ _ hab2) ?_
  intro dc dc' hdc
  obtain ⟨d1, d2⟩ := dc
  obtain ⟨e1, e2⟩ := dc'
  obtain ⟨hd1, hd2⟩ := hdc
  refine bind_rel (amPm_rel _ _ (dropWhile_rel isWsCh wsCh_rel _ _ hd2)) ?_
  intro p q hpq
  obtain ⟨p1, p2⟩ := p
  obtain ⟨q1, q2⟩ := q
  obtain ⟨hpq1, hpq2⟩ := hpq
  refine bind_rel (afterTimeZone_rel _ _ hpq2) ?_
  intro z z' hz
  exact ⟨lowEqL_append _ _ _ _
    (lowEqL_append _ _ _ _ hd1 (takeWhile_rel isWsCh wsCh_rel _ _ hd2)) hpq1, hz⟩

/-- Pattern 2 treats case-equal texts alike and captures case-equal
groups. -/
theorem p2At_rel (s t : List Char) (h : lowEqL s t) :
    optRel (prodRel lowEqL lowEqL) (p2At s) (p2At t) := by
  unfold p2At
  refine bind_rel (matchLitCI_rel _ _ _ h) fun a b hab => ?_
  refine bind_rel (sOptWs1_rel _ _ hab) fun a2 b2 hab2 => ?_
  refine firstSome_rel _ _ _ _ (dig12cands_rel _ _ hab2) ?_
  intro dc dc' hdc
  obtain ⟨d1, d2⟩ := dc
  obtain ⟨e1, e2⟩ := dc'
  obtain ⟨hd1, hd2⟩ := hdc
  refine bind_rel (matchChCI_rel ':' _ _ hd2) fun a3 b3 hab3 => ?_
  refine bind_rel (dig2_rel _ _ hab3) ?_
  intro m m' hm
  obtain ⟨m1, m2⟩ := m
  obtain ⟨n1, n2⟩ := m'
  obtain ⟨hm1, hm2⟩ := hm
  refine bind_rel (amPm_rel _ _ (dropWhile_rel isWsCh wsCh_rel _ _ hm2)) ?_
  intro p q hpq
  obtain ⟨p1, p2⟩ := p
  obtain ⟨q1, q2⟩ := q
  obtain ⟨hpq1, hpq2⟩ := hpq
  refine bind_rel (afterTimeZone_rel _ _ hpq2) ?_
  intro z z' hz
  refine ⟨?_, hz⟩
  refine lowEqL_cons ':' ':' _ _ rfl ?_ |> lowEqL_append _ _ _ _ hd1
  exact lowEqL_append _ _ _ _
    (lowEqL_append _ _ _ _ hm1 (takeWhile_rel isWsCh wsCh_rel _ _ hm2)) hpq1

/-- Pattern 3 treats case-equal texts alike and captures case-equal
groups. -/
theorem p3At_rel (s t : List Char) (h : lowEqL s t) :
    optRel (prodRel lowEqL lowEqL) (p3At s) (p3At t) := by
  unfold p3At
  refine bind_rel (matchLitCI_rel _ _ _ h) fun a b hab => ?_
  refine bind_rel (sOptWs1_rel _ _ hab) fun a2 b2 hab2 => ?_
  refine firstSome_rel _ _ _ _ (dig12cands_rel _ _ hab2) ?_
  intro dc dc' hdc
  obtain ⟨d1, d2⟩ := dc
  obtain ⟨e1, e2⟩ := dc'
  obtain ⟨hd1, hd2⟩ := hdc
  refine bind_rel (matchChCI_rel ':' _ _ hd2) fun a3 b3 hab3 => ?_
  refine bind_rel (dig2_rel _ _ hab3) ?_
  intro m m' hm
  obtain ⟨m1, m2⟩ := m
  obtain ⟨n1, n2⟩ := m'
  obtain ⟨hm1, hm2⟩ := hm
  refine bind_rel (afterTimeZone_rel _ _ hm2) ?_
  intro z z' hz
  exact ⟨lowEqL_append _ _ _ _ hd1 (lowEqL_cons ':' ':' _ _ rfl hm1), hz⟩

/-- Lowercasing fixes the colon test. -/
theorem colon_lowCh (c : Char) : lowCh c = ':' ↔ c = ':' := by
  rw [lowCh.eq_def]
  split
  all_goals first | exact Iff.rfl | decide

/-- Characters equal up to case agree on being a colon. -/
theorem colon_rel (a b : Char) (h : lowCh a = lowCh b) : a = ':' ↔ b = ':' := by
  rw [← colon_lowCh a, h, colon_lowCh b]

/-- The optional minutes group on a text not starting with a colon and
two digits. -/
theorem optColonDD_default (s : List Char)
    (hs : ∀ a b r, s ≠ ':' :: a :: b :: r) :
    optColonDD s = [([], s)] := by
  rw [optColonDD.eq_def]
  split
  · rename_i a b r
    exact absurd rfl (hs a b r)
  · rfl

/-- The optional minutes group treats case-equal texts alike, candidate
by candidate. -/
theorem optColonDD_rel (s t : List Char) (h : lowEqL s t) :
    listRel (prodRel lowEqL lowEqL) (optColonDD s) (optColonDD t) := by
  rcases lowEqL_destruct _ _ h with ⟨rfl, rfl⟩ | ⟨a, as, b, bs, rfl, rfl, hab, hrest⟩
  · exact ⟨⟨rfl, rfl⟩, trivial⟩
  by_cases hca : a = ':'
  · have hcb : b = ':' := (colon_rel a b hab).mp hca
    subst hca
    subst hcb
    rcases lowEqL_destruct _ _ hrest with ⟨rfl, rfl⟩ |
      ⟨a2, as2, b2, bs2, rfl, rfl, hab2, hrest2⟩
    · exact ⟨⟨rfl, rfl⟩, trivial⟩
    rcases lowEqL_destruct _ _ hrest2 with ⟨rfl, rfl⟩ |
      ⟨a3, as3, b3, bs3, rfl, rfl, hab3, hrest3⟩
    · exact ⟨⟨rfl, lowEqL_cons ':' ':' _ _ rfl (lowEqL_cons a2 b2 _ _ hab2 rfl)⟩,
        trivial⟩
    rw [optColonDD, optColonDD, digCh_rel a2 b2 hab2, digCh_rel a3 b3 hab3]
    by_cases hd : (isDigCh b2 && isDigCh b3) = true
    · rw [if_pos hd, if_pos hd]
      refine ⟨⟨lowEqL_cons ':' ':' _ _ rfl
        (lowEqL_cons a2 b2 _ _ hab2 (lowEqL_cons a3 b3 _ _ hab3 rfl)), hrest3⟩,
        ?_, trivial⟩
      exact ⟨rfl, lowEqL_cons ':' ':' _ _ rfl
        (lowEqL_cons a2 b2 _ _ hab2 (lowEqL_cons a3 b3 _ _ hab3 hrest3))⟩
    · rw [if_neg hd, if_neg hd]
      exact ⟨⟨rfl, lowEqL_cons ':' ':' _ _ rfl
        (lowEqL_cons a2 b2 _ _ hab2 (lowEqL_cons a3 b3 _ _ hab3 hrest3))⟩, trivial⟩
  · have hcb : ¬b = ':' := fun he => hca ((colon_rel a b hab).mpr he)
    rw [optColonDD_default _ (fun x y r hh => by
        injection hh with h1 h2
        exact hca h1),
      optColonDD_default _ (fun x y r hh => by
        injection hh with h1 h2
        exact hcb h1)]
    exact ⟨⟨rfl, lowEqL_cons a b _ _ hab hrest⟩, trivial⟩

/-- Pattern 4 treats case-equal texts alike and captures case-equal
groups. -/
theorem p4At_rel (s t : List Char) (h : lowEqL s t) :
    optRel (prodRel lowEqL lowEqL) (p4At s) (p4At t) := by
  unfold p4At
  refine bind_rel (matchLitCI_rel _ _ _ h) fun a b hab => ?_
  refine bind_rel (sOptWs1_rel _ _ hab) fun a2 b2 hab2 => ?_
  refine bind_rel (alpha1_rel _ _ hab2) fun a3 b3 hab3 => ?_
  refine bind_rel (ws1_rel _ _ hab3) fun a4 b4 hab4 => ?_
  refine firstSome_rel _ _ _ _ (dig12cands_rel _ _ hab4) ?_
  intro day day' hday
  obtain ⟨y1, y2⟩ := day
  obtain ⟨z1, z2⟩ := day'
  obtain ⟨hy1, hy2⟩ := hday
  refine bind_rel (commaWs1_rel _ _ hy2) fun a5 b5 hab5 => ?_
  refine bind_rel (dig4_rel _ _ hab5) ?_
  intro m m' hm
  obtain ⟨m1, m2⟩ := m
  obtain ⟨n1, n2⟩ := m'
  obtain ⟨hm1, hm2⟩ := hm
  refine bind_rel (commaWs1_rel _ _ hm2) fun a6 b6 hab6 => ?_
  refine firstSome_rel _ _ _ _ (dig12cands_rel _ _ hab6) ?_
  intro hh hh' hhh
  obtain ⟨u1, u2⟩ := hh
  obtain ⟨v1, v2⟩ := hh'
  obtain ⟨hu1, hu2⟩ := hhh
  refine firstSome_rel _ _ _ _ (optColonDD_rel _ _ hu2) ?_
  intro cd cd' hcd
  obtain ⟨c1, c2⟩ := cd
  obtain ⟨e1, e2⟩ := cd'
  obtain ⟨hc1, hc2⟩ := hcd
  refine bind_rel (amPm_rel _ _ (dropWhile_rel isWsCh wsCh_rel _ _ hc2)) ?_
  intro p q hpq
  obtain ⟨p1, p2⟩ := p
  obtain ⟨q1, q2⟩ := q
  obtain ⟨hpq1, hpq2⟩ := hpq
  refine bind_rel (afterTimeZone_rel _ _ hpq2) ?_
  intro z z' hz
  exact ⟨lowEqL_append _ _ _ _ (lowEqL_append _ _ _ _
    (lowEqL_append _ _ _ _ hu1 hc1) (takeWhile_rel isWsCh wsCh_rel _ _ hc2)) hpq1, hz⟩

/-- Scanning every start position treats case-equal texts alike. -/
theorem searchO_rel {r : α → α → Prop} (f g : List Char → Option α)
    (hf : ∀ s t, lowEqL s t → optRel r (f s) (g t)) :
    ∀ s t, lowEqL s t → optRel r (searchO f s) (searchO g t) := by
  intro s
  induction s with
  | nil =>
    intro t h
    rcases lowEqL_destruct _ _ h with ⟨_, rfl⟩ | ⟨a, as, b, bs, he, _, _, _⟩
    · exact hf [] [] h
    · exact List.noConfusion he
  | cons a as ih =>
    intro t h
    rcases lowEqL_destruct _ _ h with ⟨he, _⟩ | ⟨a', as', b, bs, he1, he2, hab, hrest⟩
    · exact List.noConfusion he
    · injection he1 with k1 k2
      subst k1
      subst k2
      subst he2
      exact orElse_rel (hf _ _ h) (ih bs hrest)

/-- The ordered search over the four time-bearing patterns treats
case-equal texts alike. -/
theorem timeSearch_rel (s t : List Char) (h : lowEqL s t) :
    optRel (prodRel lowEqL lowEqL) (timeSearch s) (timeSearch t) := by
  unfold timeSearch
  exact orElse_rel (searchO_rel _ _ p2At_rel _ _ h)
    (orElse_rel (searchO_rel _ _ p1At_rel _ _ h)
      (orElse_rel (searchO_rel _ _ p3At_rel _ _ h) (searchO_rel _ _ p4At_rel _ _ h)))

/-- The first bare phrase (with its optional apostrophe) treats
case-equal texts alike. -/
theorem bare1At_rel (s t : List Char) (h : lowEqL s t) :
    optRel lowEqL (bare1At s) (bare1At t) := by
  unfold bare1At
  refine bind_rel (matchLitCI_rel _ _ _ h) ?_
  intro a b hab
  rcases lowEqL_destruct _ _ hab with ⟨rfl, rfl⟩ | ⟨c, cs, c', cs', rfl, rfl, hcc, hcs⟩
  · exact matchLitCI_rel _ _ _ hab
  · by_cases hc : c = Char.ofNat 39
    · have hc' : c' = Char.ofNat 39 := (apos_rel _ _ hcc).mp hc
      subst hc
      subst hc'
      exact matchLitCI_rel _ _ _ hcs
    · have hc' : ¬c' = Char.ofNat 39 := fun he => hc ((apos_rel _ _ hcc).mpr he)
      simp only [if_neg hc, if_neg hc']
      exact matchLitCI_rel _ _ _ hab

/-- The bare-phrase search treats case-equal texts alike. -/
theorem bareHit_rel (s t : List Char) (h : lowEqL s t) : bareHit s = bareHit t := by
  unfold bareHit
  rw [optRel_isSome _ _ (searchO_rel _ _ bare1At_rel _ _ h),
    optRel_isSome _ _ (searchO_rel _ _ (matchLitCI_rel "rate limit exceeded".data) _ _ h),
    optRel_isSome _ _ (searchO_rel _ _ (matchLitCI_rel "rate limited".data) _ _ h),
    optRel_isSome _ _ (searchO_rel _ _ (matchLitCI_rel "too many requests".data) _ _ h)]

/-- Claim C10: the four time-bearing detection patterns (and the bare
phrases) are matched case-insensitively, exactly as their lowercase
forms: on two texts equal up to ASCII case, the detected flag agrees,
detection succeeds or fails identically, and the captured time and zone
groups are the corresponding slices of each original text, hence equal
up to ASCII case. -/
theorem c10_patterns_case_insensitive (s t : String)
    (h : s.data.map lowCh = t.data.map lowCh) :
    (find_rate_limit_pattern s).2 = (find_rate_limit_pattern t).2 ∧
      capRel (find_rate_limit_pattern s).1 (find_rate_limit_pattern t).1 := by
  have hts := timeSearch_rel s.data t.data h
  unfold find_rate_limit_pattern
  cases h1 : timeSearch s.data with
  | some g =>
    cases h2 : timeSearch t.data with
    | none =>
      rw [h1, h2] at hts
      exact hts.elim
    | some g' =>
      rw [h1, h2] at hts
      obtain ⟨g1, g2⟩ := g
      obtain ⟨g1', g2'⟩ := g'
      obtain ⟨hg1, hg2⟩ := hts
      exact ⟨rfl, stripWs_rel _ _ hg1, stripWs_rel _ _ hg2⟩
  | none =>
    cases h2 : timeSearch t.data with
    | some g' =>
      rw [h1, h2] at hts
      exact hts.elim
    | none =>
      have hlen : s.length = t.length := by
        have hl := congrArg List.length h
        simpa using hl
      have hbare : bareHit s.data = bareHit t.data := bareHit_rel _ _ h
      rw [hlen, hbare]
      dsimp only
      by_cases hcond :
          (t.length ≤ BARE_PATTERN_MAX_CONTENT_SIZE && bareHit t.data) = true
      · rw [if_pos hcond]
        exact ⟨rfl, trivial⟩
      · rw [if_neg hcond]
        exact ⟨rfl, trivial⟩

/-- Witness for C10: a fully uppercase reset message is detected exactly
as its lowercase form, with case-equal captures. -/
theorem c10_witness :
    (find_rate_limit_pattern "RESETS 6PM (UTC)").2 =
        (find_rate_limit_pattern "resets 6pm (utc)").2 ∧
      capRel (find_rate_limit_pattern "RESETS 6PM (UTC)").1
        (find_rate_limit_pattern "resets 6pm (utc)").1 :=
  c10_patterns_case_insensitive "RESETS 6PM (UTC)" "resets 6pm (utc)" (by decide)
